import Mathlib

/-!
Verification development for the jlog append-only journaled log store
(`src/jlog.c`).  The on-disk artefacts (data segments, index files, the
metastore, checkpoint files) are modelled at byte level: a file is a
`List Byte`, preads and pwrites are explicit slice operations, and the
C functions are translated into executable Lean definitions over those
lists.  Machine integers are modelled as `Nat` with explicit `% 2^w`
wherever the C arithmetic can wrap.
-/

namespace Jlog

/-- A single octet of a file. -/
abbrev Byte := Fin 256

/-- Truncate a natural number to one octet (the low byte). -/
def byte (n : Nat) : Byte := ⟨n % 256, Nat.mod_lt _ (by norm_num)⟩

/-- Little-endian encoding of a 32-bit value (`u_int32_t` on disk). -/
def le32 (n : Nat) : List Byte :=
  [byte n, byte (n / 2^8), byte (n / 2^16), byte (n / 2^24)]

/-- Little-endian encoding of a 64-bit value (`u_int64_t` on disk). -/
def le64 (n : Nat) : List Byte :=
  [byte n, byte (n / 2^8), byte (n / 2^16), byte (n / 2^24),
   byte (n / 2^32), byte (n / 2^40), byte (n / 2^48), byte (n / 2^56)]

/-- Little-endian decoding of a byte string into a natural number. -/
def leDec (bs : List Byte) : Nat :=
  bs.foldr (fun b acc => b.val + 256 * acc) 0

/-- `jlog_file_pread`: read exactly `len` bytes at `off`; fails (returns
`none`) when the file is too short, as the posix io layer reports a
short read as failure. -/
def pread (f : List Byte) (off len : Nat) : Option (List Byte) :=
  if off + len ≤ f.length then some ((f.drop off).take len) else none

/-- `jlog_file_pwrite` at offset `off`: overwrite in place, extending the
file when the write runs past the end (holes are zero-filled). -/
def pwrite (f : List Byte) (off : Nat) (bs : List Byte) : List Byte :=
  f.take off ++ List.replicate (off - f.length) (0 : Byte) ++ bs
    ++ f.drop (off + bs.length)

/-- The jlog error taxonomy (`jlog_err` in `jlog.h`), restricted to the
codes the core engine can produce. -/
inductive JErr where
  | SUCCESS | OPEN | LOCK
  | IDX_OPEN | IDX_SEEK | IDX_CORRUPT | IDX_WRITE | IDX_READ
  | FILE_OPEN | FILE_SEEK | FILE_CORRUPT | FILE_READ | FILE_WRITE
  | META_OPEN | ILLEGAL_WRITE | ILLEGAL_CHECKPOINT | INVALID_SUBSCRIBER
  | ILLEGAL_LOGID | SUBSCRIBER_EXISTS | CHECKPOINT | NOT_SUPPORTED
  | CLOSE_LOGID
  deriving DecidableEq, Repr, Inhabited

/-- A record id (`jlog_id`): 32-bit segment id and 1-based marker. -/
structure JId where
  log : Nat
  marker : Nat
  deriving DecidableEq, Repr, Inhabited

/-- The context mode (`jlog_mode`). -/
inductive CtxMode where
  | NEW | INIT | APPEND | READ | INVALID
  deriving DecidableEq, Repr

/-- Modelled from the spec: the record header layout of
`jlog_message_header` lives in `jlog_private.h`, which is not part of
the sources; the spec fixes it as 16 bytes
`magic(u32) | tv_sec(u32) | tv_usec(u32) | mlen(u32)`, little-endian. -/
def hdrBytes (magic sec usec mlen : Nat) : List Byte :=
  le32 magic ++ le32 sec ++ le32 usec ++ le32 mlen

/-- Read a `jlog_message_header` from a file at `off` and expose the two
fields the engine inspects: `reserved` (the magic) and `mlen`. -/
def readHdr (f : List Byte) (off : Nat) : Option (Nat × Nat) :=
  (pread f off 16).map fun hb => (leDec (hb.take 4), leDec ((hb.drop 12).take 4))

/-- A log record as the writer receives it: a timestamp and a payload. -/
structure JRec where
  sec : Nat
  usec : Nat
  mess : List Byte
  deriving DecidableEq, Repr, Inhabited

/-- On-disk form of a record, as laid down by `jlog_ctx_write_message`:
the 16-byte header (whose `mlen` field is the payload length truncated
to 32 bits) followed by the payload bytes. -/
def encRec (magic : Nat) (r : JRec) : List Byte :=
  hdrBytes magic r.sec r.usec r.mess.length ++ r.mess

/-- On-disk contents of a data segment holding the records `g`. -/
def segBytes (magic : Nat) (g : List JRec) : List Byte :=
  (g.map (encRec magic)).flatten

/-!
## `jlog_idx_details` (src/jlog.c:306-340)

Interpretation of an index file: `marker`/`closed` from the byte size
and the last 8-byte entry.  The file-layer failures (`IDX_OPEN`,
`IDX_SEEK`) concern the file handle, not the contents, and are outside
of the byte-level model: the function receives the index contents.
-/

def jlog_idx_details (idx : List Byte) : Except JErr (Nat × Bool) :=
  let index_len := idx.length
  if index_len % 8 ≠ 0 then .error .IDX_CORRUPT
  else if 8 < index_len then
    match pread idx (index_len - 8) 8 with
    | none => .error .IDX_READ
    | some e =>
      if leDec e ≠ 0 then .ok (index_len / 8, false)
      else .ok (index_len / 8 - 1, true)
  else .ok (index_len / 8, false)

/-!
## `__jlog_metastore_atomic_increment` (src/jlog.c:1299-1335)

The metastore is re-read under its lock; the writer's cached
`current_log` is compared against the shared `storage_log`.  Both are
32-bit, so the increment wraps modulo `2^32`.
-/

structure IncOut where
  err : JErr
  current : Nat   -- ctx->current_log when the routine returns
  storage : Nat   -- meta->storage_log when the routine returns
  created : Bool  -- whether a new segment file was created
  deriving DecidableEq, Repr

def metastore_atomic_increment (dataOpen : Bool) (current storage : Nat) :
    IncOut :=
  if dataOpen then
    -- SYS_FAIL(JLOG_ERR_NOT_SUPPORTED) jumps to finish, which still
    -- adopts the metastore value into current_log
    ⟨.NOT_SUPPORTED, storage, storage, false⟩
  else if storage = current then
    let c := (current + 1) % 2^32
    ⟨.SUCCESS, c, c, true⟩
  else
    ⟨.SUCCESS, storage, storage, false⟩

/-!
## Checkpoint filename encoding and decoding

`compute_checkpoint_filename` (src/jlog.c:710-733) encodes each byte of
the subscriber name as two hex characters after the `cp.` marker;
`jlog_ctx_list_subscribers` (src/jlog.c:486-536) decodes pairs of
characters back into bytes.
-/

/-- Modelled from the spec: the `__jlog_hexchars` table is declared in
`jlog_private.h`, which is not among the sources; the spec fixes the
encoding as two lowercase hex characters per name byte. -/
def __jlog_hexchars : List Char :=
  ['0', '1', '2', '3', '4', '5', '6', '7'] ++
    ['8', '9', 'a', 'b'] ++ ['c', 'd', 'e', 'f']

/-- The filename suffix after `cp.` produced by
`compute_checkpoint_filename`: for each byte, the table entry of the
high nibble `(*sub & 0xf0) >> 4` then of the low nibble `*sub & 0x0f`.
The subscriber name is a NUL-terminated C string, i.e. a list of
nonzero bytes. -/
def cpSuffix (subscriber : List Byte) : List Char :=
  subscriber.flatMap fun b =>
    [__jlog_hexchars.getD (b.val / 16) ' ',
     __jlog_hexchars.getD (b.val % 16) ' ']

/-- One nibble of the `jlog_ctx_list_subscribers` decode loop: scan the
table for the character; a character that matches no entry leaves the
nibble at 0. -/
def hexNibble (c : Char) : Nat :=
  (__jlog_hexchars.findIdx? (fun x => x = c)).getD 0

/-- The decode loop of `jlog_ctx_list_subscribers`: characters are
consumed in pairs, `c = hi << 4; c |= lo`.  (On an odd-length suffix
the C loop reads the terminating NUL as the low-nibble character and
then walks past it; encoded names always have even length.) -/
def cpDecodeSuffix : List Char → List Byte
  | [] => []
  | [c] => [byte (hexNibble c * 16)]
  | c1 :: c2 :: rest => byte (hexNibble c1 * 16 + hexNibble c2) :: cpDecodeSuffix rest

/-!
## `jlog_ctx_remove_subscriber` (src/jlog.c:1417-1433)

The checkpoint file of the subscriber is unlinked; the return value and
`last_error` reflect the unlink outcome.  Unlink is modelled over the
set of directory entries, with an `ioFail` input standing for an unlink
failure other than ENOENT (e.g. EACCES on the directory).
-/

inductive UnlinkOutcome where
  | ok | enoent | otherErr
  deriving DecidableEq, Repr

def unlinkFile (ioFail : Bool) (files : List (List Char)) (f : List Char) :
    UnlinkOutcome × List (List Char) :=
  if ioFail then (.otherErr, files)
  else if f ∈ files then (.ok, files.erase f)
  else (.enoent, files)

def jlog_ctx_remove_subscriber (ioFail : Bool) (files : List (List Char))
    (s : List Byte) : Int × Option JErr × List (List Char) :=
  let name := 'c' :: 'p' :: '.' :: cpSuffix s
  match unlinkFile ioFail files name with
  | (.ok, files') => (1, some .SUCCESS, files')
  | (.enoent, files') => (0, some .INVALID_SUBSCRIBER, files')
  | (.otherErr, files') => (-1, none, files')

/-!
## `jlog_ctx_read_message`, single validation pass (src/jlog.c:1631-1727)

The body of `jlog_ctx_read_message` up to the `finish` label, i.e. one
pass of the id validation and mmap extraction (the `with_lock` flag
changes only locking, not any computed value).  `data = none` models a
missing data segment file (`__jlog_open_reader` fails); the indexer is
opened with `O_CREAT`, so the index contents are always available.

The `.oob` outcome records that the `memcpy` of the header dereferences
mapped memory beyond `mmap_len`: the C guard
`data_off > ctx->mmap_len - sizeof(jlog_message_header)` subtracts in
`size_t`, which wraps modulo `2^64` whenever `mmap_len < 16`.
-/

inductive ReadOutcome where
  | ok (payload : List Byte)
  | err (e : JErr)
  | oob
  deriving DecidableEq, Repr

def jlog_ctx_read_message_once (mode : CtxMode) (data : Option (List Byte))
    (idx : List Byte) (id : JId) : ReadOutcome :=
  if mode ≠ .READ then .err .ILLEGAL_WRITE
  else if id.marker < 1 then .err .ILLEGAL_LOGID
  else match data with
  | none => .err .FILE_OPEN
  | some d =>
    let index_len := idx.length
    if index_len % 8 ≠ 0 then .err .IDX_CORRUPT
    else if id.marker * 8 > index_len then .err .ILLEGAL_LOGID
    else match pread idx ((id.marker - 1) * 8) 8 with
    | none => .err .IDX_READ
    | some eb =>
      let data_off := leDec eb
      if data_off = 0 ∧ id.marker ≠ 1 then
        if id.marker * 8 = index_len then .err .CLOSE_LOGID
        else .err .IDX_CORRUPT
      else
        -- __jlog_mmap_reader: the map covers the whole data file
        let mmap_len := d.length
        if data_off > (mmap_len + 2^64 - 16) % 2^64 then .err .IDX_CORRUPT
        else match readHdr d data_off with
        | none => .oob   -- header memcpy runs past the end of the map
        | some (_, mlen) =>
          if (data_off + 16 + mlen) % 2^64 > mmap_len then .err .IDX_CORRUPT
          else .ok ((d.drop (data_off + 16)).take mlen)

/-!
## `___jlog_resync_index` (src/jlog.c:877-1037)

The index resynchronisation.  `scanLoop` is the forward scan (the
`while (data_off + sizeof(logmhdr) <= data_len)` loop); it returns the
error state, the record offsets found, and the final `data_off`.
Offsets are buffered in groups of `BUFFERED_INDICES = 1024` and flushed
by `pwrite` at the current end of the index, so on success the net
index extension is all offsets; when the scan fails, only the complete
groups flushed before the failure have reached the file.
-/

def scanLoop (d : List Byte) (magic : Nat) (data_off : Nat) :
    JErr × List Nat × Nat :=
  if h : data_off + 16 ≤ d.length then
    match readHdr d data_off with
    | none => (.FILE_READ, [], data_off)
    | some (reserved, mlen) =>
      if reserved ≠ magic then (.FILE_CORRUPT, [], data_off)
      else if h2 : data_off + 16 + mlen > d.length then (.SUCCESS, [], data_off)
      else
        let r := scanLoop d magic (data_off + 16 + mlen)
        (r.1, data_off :: r.2.1, r.2.2)
  else (.SUCCESS, [], data_off)
  termination_by d.length - data_off
  decreasing_by omega

/-- Result of one `___jlog_resync_index` run: error state, index file
contents, the `last` id (meaningful on the paths that set it; the C
leaves `*last` untouched on failure, modelled as marker 0), and the
`closed` flag. -/
structure RsOut where
  err : JErr
  idx : List Byte
  last : JId
  closed : Bool
  deriving DecidableEq, Repr

/-- Lines 1005-1027 of `___jlog_resync_index`: set `last`, then close
the segment.  `index_off` is the index size after the flush (equal to
`idx.length` on this path). -/
def sealStep (storage log data_len finalOff index_off : Nat)
    (idx : List Byte) : RsOut :=
  let last : JId := ⟨log, index_off / 8⟩
  if log < storage then
    if finalOff ≠ data_len then ⟨.FILE_CORRUPT, idx, last, false⟩
    else if index_off ≠ 0 then ⟨.SUCCESS, idx ++ le64 0, last, true⟩
    else ⟨.SUCCESS, idx, last, true⟩
  else ⟨.SUCCESS, idx, last, false⟩

/-- The scan-and-close phase of `___jlog_resync_index` (from the
`while` loop at line 970).  `data_off` is the scan start offset. -/
def resyncScanTail (magic storage log : Nat) (d idx : List Byte)
    (data_off : Nat) : RsOut ⊕ List Byte :=
  match scanLoop d magic data_off with
  | (e, offs, finalOff) =>
    if e ≠ .SUCCESS then
      let flushed := offs.take (1024 * (offs.length / 1024))
      .inl ⟨e, idx ++ (flushed.map le64).flatten, ⟨log, 0⟩, false⟩
    else
      let idx' := idx ++ (offs.map le64).flatten
      .inl (sealStep storage log d.length finalOff (idx.length + 8 * offs.length) idx')

/-- The `if (index_off > 0)` advance step (lines 961-967): skip the
record whose offset the last index entry names, using its header. -/
def resyncAdvance (magic storage log : Nat) (d idx : List Byte)
    (data_off0 : Nat) : RsOut ⊕ List Byte :=
  if 0 < idx.length then
    match readHdr d data_off0 with
    | none => .inl ⟨.FILE_READ, idx, ⟨log, 0⟩, false⟩
    | some (_, mlen) =>
      let data_off := data_off0 + 16 + mlen
      if data_off > d.length then .inr (idx.take idx.length)   -- RESTART
      else resyncScanTail magic storage log d idx data_off
  else resyncScanTail magic storage log d idx data_off0

/-- One pass of `___jlog_resync_index` from the `restart:` label.
`.inr idx'` is the `RESTART` macro on the first try: truncate the index
file to `index_off` and run the pass again. -/
def resyncPass (magic storage log : Nat) (d idx : List Byte) :
    RsOut ⊕ List Byte :=
  let data_len := d.length
  let index_off := idx.length
  if index_off % 8 ≠ 0 then .inr (idx.take index_off)           -- RESTART
  else if 8 < index_off then
    match pread idx (index_off - 8) 8 with
    | none => .inl ⟨.IDX_READ, idx, ⟨log, 0⟩, false⟩
    | some eb =>
      let lastEntry := leDec eb
      if lastEntry = 0 then
        -- the log file has been "closed"
        .inl ⟨.SUCCESS, idx, ⟨log, index_off / 8 - 1⟩, true⟩
      else if lastEntry > data_len then .inr (idx.take index_off)  -- RESTART
      else resyncAdvance magic storage log d idx lastEntry
  else resyncAdvance magic storage log d idx 0

/-- `___jlog_resync_index`: run the pass; on a first `RESTART` truncate
and run it once more (`second_try`); a second restartable corruption is
surfaced as `IDX_CORRUPT`. -/
def resync_index_attempt (magic storage log : Nat)
    (data : Option (List Byte)) (idx : List Byte) : RsOut :=
  match data with
  | none => ⟨.FILE_OPEN, idx, ⟨log, 0⟩, false⟩
  | some d =>
    match resyncPass magic storage log d idx with
    | .inl r => r
    | .inr idx' =>
      match resyncPass magic storage log d idx' with
      | .inl r => r
      | .inr idx'' => ⟨.IDX_CORRUPT, idx'', ⟨log, 0⟩, false⟩

/-!
## `jlog_repair_datafile` (src/jlog.c:116-234)

Scan-and-compact repair of a data segment.  Offsets are tracked as
`Int` because the scan starts with `this = base - sizeof(hdr)`.  The
main loop advances `this` by at least 16 bytes per iteration, so fuel
`d.length + 2` is ample; the search loop advances one byte at a time.
-/

/-- The `error:` clause's search for the next pair of valid headers.
Returns the final `next` cursor together with, when a pair was found,
`afternext` and the `mlen` that the `hdr` variable holds at the `break`
(the header at `next` when `afternext == mmap_end`, the header at
`afternext` otherwise). -/
def repairSearch (d : List Byte) (magic : Nat) :
    Nat → Int → (Int × Option (Int × Nat))
  | 0, next => (next, none)
  | fuel + 1, next =>
    if next + 16 ≤ (d.length : Int) then
      match readHdr d next.toNat with
      | none => (next, none)
      | some (res, mlen) =>
        if res = magic then
          let afternext := next + 16 + (mlen : Int)
          if afternext ≤ 0 then repairSearch d magic fuel (next + 1)
          else if afternext = (d.length : Int) then (next, some (afternext, mlen))
          else if afternext + 16 > (d.length : Int) then
            repairSearch d magic fuel (next + 1)
          else match readHdr d afternext.toNat with
            | none => repairSearch d magic fuel (next + 1)
            | some (res2, mlen2) =>
              if res2 = magic then (next, some (afternext, mlen2))
              else repairSearch d magic fuel (next + 1)
        else repairSearch d magic fuel (next + 1)
    else (next, none)

/-- The main tagging loop of `jlog_repair_datafile`: collect the
invalid regions (as byte offsets into the map).  `hmlen` is the `mlen`
field of the `hdr` variable. -/
def repairScan (d : List Byte) (magic : Nat) :
    Nat → Int → Nat → List (Nat × Nat) → List (Nat × Nat)
  | 0, this, _, acc =>
    -- fuel exhaustion; unreachable, treated as loop exit
    if this ≠ (d.length : Int) then acc ++ [(this.toNat, d.length)] else acc
  | fuel + 1, this, hmlen, acc =>
    if this + 16 ≤ (d.length : Int) then
      let next := this + 16 + (hmlen : Int)
      let runError :=
        let (nextF, found) := repairSearch d magic (d.length + 2) (this + 16)
        let thisC := if this < 0 then 0 else this
        match found with
        | none =>
          -- search exhausted: `next + sizeof(hdr) > mmap_end` breaks the loop
          if thisC ≠ (d.length : Int) then acc ++ [(thisC.toNat, d.length)] else acc
        | some (afternext, mlen2) =>
          let acc' := if nextF > thisC then acc ++ [(thisC.toNat, nextF.toNat)] else acc
          repairScan d magic fuel afternext mlen2 acc'
      if next ≤ 0 then runError
      else if next = (d.length : Int) then
        -- this = next; break; the post-loop tag does not fire
        acc
      else if next + 16 > (d.length : Int) then runError
      else match readHdr d next.toNat with
        | none => runError
        | some (res, mlen') =>
          if res ≠ magic then runError
          else repairScan d magic fuel next mlen' acc
    else
      if this ≠ (d.length : Int) then acc ++ [(this.toNat, d.length)] else acc

/-- The `MOVE_SEGMENT` macro: copy `cnt` bytes from `src` to `dst` in
4096-byte chunks, reading and writing through the file. -/
def moveSegment (f : List Byte) (src dst cnt : Nat) : Option (List Byte) :=
  if h : cnt = 0 then some f
  else
    let chunk := min 4096 cnt
    match pread f src chunk with
    | none => none
    | some buf => moveSegment (pwrite f dst buf) (src + chunk) (dst + chunk) (cnt - chunk)
  termination_by cnt
  decreasing_by
    have : min 4096 cnt ≥ 1 := by omega
    omega

/-- The compaction phase: excise the tagged regions by copying the
valid stretches forward; returns the file before truncation and the
final `dst`. -/
def repairCompactGo (f : List Byte) (origLen : Nat) :
    Nat → List (Nat × Nat) → Option (List Byte × Nat)
  | dst, [] => some (f, dst)
  | dst, [(_, e)] =>
    let l := origLen - e
    if l > 0 then (moveSegment f e dst l).map (fun f' => (f', dst + l))
    else some (f, dst)
  | dst, (_, e) :: r2 :: rest =>
    let l := r2.1 - e
    match moveSegment f e dst l with
    | none => none
    | some f' => repairCompactGo f' origLen (dst + l) (r2 :: rest)

/-- `jlog_repair_datafile`: returns the error state, the data file
contents afterwards, and the C return value (`invalid_count`, or `-1`
on failure).  On a failed pread/pwrite during compaction the C leaves
the file partially copied; the model returns it unmodified with the
error. -/
def jlog_repair_datafile (magic : Nat) (data : Option (List Byte)) :
    JErr × Option (List Byte) × Int :=
  match data with
  | none => (.FILE_OPEN, none, -1)
  | some d =>
    let inv := repairScan d magic (d.length + 2) (-16 : Int) 0 []
    match inv with
    | [] => (.SUCCESS, some d, 0)
    | (s0, _) :: _ =>
      match repairCompactGo d d.length s0 inv with
      | none => (.FILE_READ, some d, -1)
      | some (f', dstF) => (.SUCCESS, some (f'.take dstF), (inv.length : Int))

/-!
## `__jlog_resync_index` (src/jlog.c:1039-1058)

The retry loop around `___jlog_resync_index`: up to 4 attempts; between
failed attempts on an immutable segment (`log < storage_log`) the data
file is repaired and the index truncated to zero.  The output records
how many attempts and repairs were performed.
-/

structure RsLoopOut where
  data : Option (List Byte)
  idx : List Byte
  res : RsOut
  attempts : Nat
  repairs : Nat
  deriving Repr

def resyncLoopGo (magic storage log : Nat) :
    Nat → Option (List Byte) → List Byte → Nat → Nat → RsLoopOut
  | 0, data, idx, att, rep =>
    let r := resync_index_attempt magic storage log data idx
    if r.err = .SUCCESS ∨ r.err = .FILE_OPEN ∨ r.err = .IDX_OPEN ∨ log ≥ storage
    then ⟨data, r.idx, r, att + 1, rep⟩
    else
      -- even the last failed attempt is followed by the repair and the
      -- truncation before the loop exits
      ⟨(jlog_repair_datafile magic data).2.1, [], r, att + 1, rep + 1⟩
  | m + 1, data, idx, att, rep =>
    let r := resync_index_attempt magic storage log data idx
    if r.err = .SUCCESS ∨ r.err = .FILE_OPEN ∨ r.err = .IDX_OPEN ∨ log ≥ storage
    then ⟨data, r.idx, r, att + 1, rep⟩
    else
      -- jlog_repair_datafile's return value is ignored; the index is
      -- truncated to zero
      resyncLoopGo magic storage log m ((jlog_repair_datafile magic data).2.1)
        [] (att + 1) (rep + 1)

def resync_index (magic storage log : Nat) (data : Option (List Byte))
    (idx : List Byte) : RsLoopOut :=
  resyncLoopGo magic storage log 3 data idx 0 0

/-!
## `jlog_pending_readers` (src/jlog.c:406-469) and
## `__jlog_set_checkpoint` (src/jlog.c:648-694)

`jlog_pending_readers` counts the checkpoint files whose stored `log`
is at most the given segment id.  `__jlog_set_checkpoint` writes the
new id into the subscriber's checkpoint file and then unlinks every
segment in `[old.log, new.log)` with no pending readers; the count is
taken against the files as they stand after the write.
-/

def jlog_pending_readers (cps : List JId) (log : Nat) : Nat :=
  (cps.filter (fun id => id.log ≤ log)).length

/-- A directory as the checkpoint machinery sees it: the `cp.*` files
(subscriber name ↦ stored id) and, for each segment id, whether its
data and index files exist. -/
structure CpDir where
  cps : List (List Byte × JId)
  dataExists : Nat → Bool
  idxExists : Nat → Bool

def cpLookup (cps : List (List Byte × JId)) (s : List Byte) : Option JId :=
  (cps.find? (fun p => p.1 = s)).map (·.2)

def cpUpdate (cps : List (List Byte × JId)) (s : List Byte) (id : JId) :
    List (List Byte × JId) :=
  cps.map (fun p => if p.1 = s then (p.1, id) else p)

/-- The retention sweep of `__jlog_set_checkpoint` (lines 685-689):
`__jlog_unlink_datafile` removes the data file and the index file. -/
def sweepGo (cps : List JId) (dE iE : Nat → Bool) (log upto : Nat) :
    (Nat → Bool) × (Nat → Bool) :=
  if h : log < upto then
    if jlog_pending_readers cps log = 0 then
      sweepGo cps (fun L => if L = log then false else dE L)
        (fun L => if L = log then false else iE L) (log + 1) upto
    else sweepGo cps dE iE (log + 1) upto
  else (dE, iE)
  termination_by upto - log
  decreasing_by all_goals omega

/-- `__jlog_set_checkpoint`: `none` models a failed open of the
checkpoint file.  The subscriber's file is assumed non-empty (on an
empty file the C takes `old_id.log` from the new id, which makes the
sweep range empty). -/
def jlog_set_checkpoint (dir : CpDir) (s : List Byte) (id : JId) :
    Option CpDir :=
  match cpLookup dir.cps s with
  | none => none
  | some old_id =>
    let cps' := cpUpdate dir.cps s id
    let (dE, iE) := sweepGo (cps'.map (·.2)) dir.dataExists dir.idxExists
      old_id.log id.log
    some ⟨cps', dE, iE⟩

/-!
## The whole-directory model for the write/read round trip

State of a jlog directory under one writer and one subscriber: the
data segment files (`none` = not created or unlinked), the index
files, the metastore's `storage_log`, and the subscriber's checkpoint.
The mmap slots and per-segment handle caching of the C context affect
only which file handles are open, not any computed value, and are not
part of the state.
-/

structure JDirSt where
  segs : List (Option (List Byte))
  idxs : List (List Byte)
  storage : Nat
  cp : JId
  deriving Repr

def segGet (st : JDirSt) (log : Nat) : Option (List Byte) :=
  st.segs.getD log none

def idxGet (st : JDirSt) (log : Nat) : List Byte :=
  st.idxs.getD log []

def listSetPad {α : Type} (dflt : α) (l : List α) (i : Nat) (a : α) :
    List α :=
  if i < l.length then l.set i a
  else l ++ List.replicate (i - l.length) dflt ++ [a]

def setSeg (st : JDirSt) (log : Nat) (v : Option (List Byte)) : JDirSt :=
  { st with segs := listSetPad none st.segs log v }

def setIdx (st : JDirSt) (log : Nat) (v : List Byte) : JDirSt :=
  { st with idxs := listSetPad [] st.idxs log v }

/-- `__jlog_resync_index` against the directory: the wrapper may also
rewrite the data file (repair) and the index. -/
def resync_dir (magic log : Nat) (st : JDirSt) : JDirSt × RsOut :=
  let r := resync_index magic st.storage log (segGet st log) (idxGet st log)
  (setIdx (setSeg st log r.data) log r.idx, r.res)

/-- `___jlog_resync_index` against the directory (the single-attempt
form used inside `jlog_ctx_read_message`). -/
def resync_attempt_dir (magic log : Nat) (st : JDirSt) : JDirSt × RsOut :=
  let r := resync_index_attempt magic st.storage log (segGet st log) (idxGet st log)
  (setIdx st log r.idx, r)

/-- `__jlog_open_writer`: open (creating if needed) the data file of
the metastore's current segment. -/
def open_writer (st : JDirSt) : JDirSt :=
  match segGet st st.storage with
  | some _ => st
  | none => setSeg st st.storage (some [])

/-- `__jlog_metastore_atomic_increment` against the directory: the
writer's slot is closed at both call sites, and a lone writer's cached
`current_log` equals `storage_log`. -/
def atomic_increment_dir (st : JDirSt) : JDirSt :=
  let o := metastore_atomic_increment false st.storage st.storage
  let st' : JDirSt := { st with storage := o.storage }
  if o.created then setSeg st' o.storage (some []) else st'

/-- One pass of the `begin:` block of `jlog_ctx_write_message`
(src/jlog.c:1336-1400): `.inr` is the size-triggered rotation followed
by `goto begin`. -/
def write_step (magic limit : Nat) (r : JRec) (st : JDirSt) :
    JDirSt ⊕ JDirSt :=
  let st := open_writer st
  let d := (segGet st st.storage).getD []
  if limit ≤ d.length then
    .inr (atomic_increment_dir st)
  else
    -- header pwrite then payload pwrite, both at the current tail
    let d' := d ++ encRec magic r
    let st := setSeg st st.storage (some d')
    if limit ≤ d'.length then .inl (atomic_increment_dir st)
    else .inl st

/-- `jlog_ctx_write_message` in append mode.  After a rotation the new
segment is empty, so the `goto begin` loop can only repeat once unless
`unit_limit = 0`; a second rotation in a row is reported as `none`
(the C would loop forever). -/
def jlog_ctx_write_message (magic limit : Nat) (r : JRec) (st : JDirSt) :
    Option JDirSt :=
  match write_step magic limit r st with
  | .inl st' => some st'
  | .inr st' =>
    match write_step magic limit r st' with
    | .inl st'' => some st''
    | .inr _ => none

/-- The directory right after `jlog_ctx_init` plus `open_writer`:
metastore with `storage_log = 0`, no segment files yet. -/
def jlog_init_state : JDirSt :=
  { segs := [none], idxs := [[]], storage := 0, cp := ⟨0, 0⟩ }

def writer_run (magic limit : Nat) (recs : List JRec) : Option JDirSt :=
  recs.foldlM (fun st r => jlog_ctx_write_message magic limit r st)
    jlog_init_state

/-- `__jlog_unlink_datafile`: remove the data file and its index. -/
def unlink_datafile_dir (st : JDirSt) (log : Nat) : JDirSt :=
  setIdx (setSeg st log none) log []

/-- The retention sweep of `__jlog_set_checkpoint` for the
single-subscriber directory: the pending-reader scan reads the
checkpoint file as freshly written. -/
def sweep_dir (st : JDirSt) : Nat → Nat → JDirSt
  | log, upto =>
    if h : log < upto then
      if jlog_pending_readers [st.cp] log = 0 then
        sweep_dir (unlink_datafile_dir st log) (log + 1) upto
      else sweep_dir st (log + 1) upto
    else st
  termination_by log upto => upto - log
  decreasing_by all_goals omega

/-- `__jlog_set_checkpoint` for the single subscriber: pwrite the new
id, then sweep `[old.log, new.log)`. -/
def set_checkpoint_dir (st : JDirSt) (id : JId) : JDirSt :=
  let old := st.cp
  let st := { st with cp := id }
  sweep_dir st old.log id.log

/-- `jlog_ctx_first_log_id`: smallest hex-named data file, id 0 when
the directory has none. -/
def first_log_id (st : JDirSt) : JId :=
  match (List.range st.segs.length).find? (fun L => (segGet st L).isSome) with
  | some L => ⟨L, 0⟩
  | none => ⟨0, 0⟩

/-- `jlog_ctx_add_subscriber(s, JLOG_BEGIN)`: create the checkpoint at
the first log id (the first `__jlog_set_checkpoint` on the fresh file
has an empty sweep range). -/
def add_subscriber_begin (st : JDirSt) : JDirSt :=
  { st with cp := first_log_id st }

def statSegLen (st : JDirSt) (L : Nat) : Option Nat :=
  (segGet st L).map List.length

/-- `__jlog_find_first_log_after` (src/jlog.c:1538-1630).  The
`goto attempt` loop advances `start.log` by one each round and never
moves past the writer, so `storage + 2` fuel is ample; fuel 0 is not
reachable from the states covered by the theorems below. -/
def find_first_log_after (magic : Nat) :
    Nat → JId → JDirSt → JDirSt × Except JErr (JId × JId)
  | 0, _, st => (st, .error .IDX_CORRUPT)
  | fuel + 1, start, st =>
    let p := resync_dir magic start.log st
    let st := p.1
    let rl := p.2
    if rl.err ≠ .SUCCESS then
      if rl.err = .FILE_OPEN then
        -- the data file is missing (ENOENT); peek at the next segment
        if start.log ≥ st.storage then (st, .ok (start, start))
        else
          let q := resync_dir magic (start.log + 1) st
          let st := q.1
          if q.2.err ≠ .SUCCESS then (st, .ok (start, start))
          else if (idxGet st (start.log + 1)).length = 0 then (st, .ok (start, start))
          else find_first_log_after magic fuel ⟨start.log + 1, 0⟩ st
      else (st, .error rl.err)
    else
      let last := rl.last
      -- "if someone checkpoints off the end, be nice"
      let start := if last.log = start.log ∧ last.marker < start.marker
                   then last else start
      if start = last ∧ rl.closed then
        match statSegLen st (start.log + 1) with
        | none =>
          -- stat failed; `storage_log - 1` is 32-bit arithmetic
          if start.log < (st.storage + 2^32 - 1) % 2^32 then
            let s2 : JId := ⟨(start.log + 2) % 2^32, 0⟩
            (st, .ok (s2, s2))
          else (st, .ok (start, start))
        | some sz =>
          if start.log ≥ st.storage ∨ sz = 0 then (st, .ok (start, start))
          else
            let q := resync_dir magic (start.log + 1) st
            let st := q.1
            if q.2.err ≠ .SUCCESS then (st, .ok (start, start))
            else if (idxGet st (start.log + 1)).length = 0 then (st, .ok (start, start))
            else find_first_log_after magic fuel ⟨start.log + 1, 0⟩ st
      else (st, .ok (start, last))

/-- `jlog_ctx_read_interval` (src/jlog.c:1728-1781) for the reader. -/
def jlog_ctx_read_interval (magic : Nat) (st : JDirSt) :
    JDirSt × Except JErr (Int × JId × JId) :=
  let chkpt := st.cp
  let p := find_first_log_after magic (st.storage + 2) chkpt st
  let st := p.1
  match p.2 with
  | .error e => (st, .error e)
  | .ok (start0, finish) =>
    let start : JId :=
      ⟨start0.log, if start0.log ≠ chkpt.log then 0 else chkpt.marker⟩
    let st := if start.log ≠ chkpt.log then set_checkpoint_dir st start else st
    let count : Int := (finish.marker : Int) - (start.marker : Int)
    let start := if finish.marker > start.marker
                 then ⟨start.log, start.marker + 1⟩ else start
    if count < 0 then
      -- checkpoint past the end of the segment: snap it to `finish`
      let st := set_checkpoint_dir st finish
      (st, .ok (0, start, finish))
    else (st, .ok (count, start, finish))

/-- `jlog_ctx_read_message` with its retry: on any failure other than
`CLOSE_LOGID` the index is truncated (for `IDX_CORRUPT`), resynced
with `___jlog_resync_index`, and the pass is repeated once under the
index lock. -/
def jlog_ctx_read_message_dir (magic : Nat) (st : JDirSt) (id : JId) :
    JDirSt × ReadOutcome :=
  let o := jlog_ctx_read_message_once .READ (segGet st id.log) (idxGet st id.log) id
  match o with
  | .ok p => (st, .ok p)
  | .oob => (st, .oob)
  | .err e =>
    if e = .CLOSE_LOGID then (st, .err .CLOSE_LOGID)
    else
      let st := if e = .IDX_CORRUPT then setIdx st id.log [] else st
      let q := resync_attempt_dir magic id.log st
      let st := q.1
      (st, jlog_ctx_read_message_once .READ (segGet st id.log) (idxGet st id.log) id)

/-- Read the payloads at markers `j .. upto` of segment `log`. -/
def read_messages_range (magic : Nat) (st : JDirSt) (log : Nat) :
    Nat → Nat → JDirSt × Option (List (List Byte))
  | j, upto =>
    if h : j > upto then (st, some [])
    else
      match jlog_ctx_read_message_dir magic st ⟨log, j⟩ with
      | (st', .ok p) =>
        match read_messages_range magic st' log (j + 1) upto with
        | (st'', some ps) => (st'', some (p :: ps))
        | (st'', none) => (st'', none)
      | (st', _) => (st', none)
  termination_by j upto => upto + 1 - j
  decreasing_by all_goals omega

/-- `jlog_ctx_read_checkpoint` in read mode. -/
def jlog_ctx_read_checkpoint (st : JDirSt) (id : JId) : JDirSt :=
  set_checkpoint_dir st id

/-- The canonical consumption loop of a subscriber: `read_interval`,
read every id in the window with `read_message`, checkpoint at
`finish`, repeat until the window is empty. -/
def subscriber_drain (magic : Nat) : Nat → JDirSt → Option (List (List Byte))
  | 0, _ => none
  | fuel + 1, st =>
    let p := jlog_ctx_read_interval magic st
    let st := p.1
    match p.2 with
    | .error _ => none
    | .ok (count, start, finish) =>
      if count ≤ 0 then some []
      else
        match read_messages_range magic st start.log start.marker finish.marker with
        | (_, none) => none
        | (st', some ps) =>
          let st'' := jlog_ctx_read_checkpoint st' finish
          (subscriber_drain magic fuel st'').map (ps ++ ·)

/-- End to end: write the records with a single writer, then drain a
fresh subscriber added at `JLOG_BEGIN`. -/
def jlog_round_trip (magic limit : Nat) (recs : List JRec) :
    Option (List (List Byte)) :=
  (writer_run magic limit recs).bind fun st =>
    subscriber_drain magic (2 * st.storage + 3) (add_subscriber_begin st)

/-!
## Derived shapes used to state and prove the round-trip property

These describe what the writer lays down and what resync builds: the
record-start offsets of a clean segment, and the open/sealed index file
contents.
-/

/-- Bytes a record occupies on disk. -/
def recSize (r : JRec) : Nat := 16 + r.mess.length

/-- Total bytes of a record list on disk. -/
def sizeSum (g : List JRec) : Nat := (g.map recSize).sum

/-- Record start offsets of a clean segment, beginning at `base`. -/
def offsetsFrom (base : Nat) : List JRec → List Nat
  | [] => []
  | r :: t => base :: offsetsFrom (base + recSize r) t

/-- The index of an open clean segment: one offset per record. -/
def openIdx (g : List JRec) : List Byte :=
  (((offsetsFrom 0 g).map le64)).flatten

/-- The index of a sealed clean segment: offsets plus the zero entry. -/
def sealedIdx (g : List JRec) : List Byte := openIdx g ++ le64 0

/-- The index `___jlog_resync_index` builds for the clean segment `g`
of id `log` when the metastore names `storage`: sealed when the
segment is immutable and non-empty, open otherwise. -/
def builtIdx (storage log : Nat) (g : List JRec) : List Byte :=
  if log < storage ∧ g ≠ [] then sealedIdx g else openIdx g

/-- A record list fit for the embedding's arithmetic: payload lengths
are representable in `mlen` and the segment fits in a `size_t` map. -/
def goodSeg (g : List JRec) : Prop :=
  (∀ r ∈ g, r.mess.length < 2^32) ∧ sizeSum g < 2^64

/-- Directory invariant of the reader phase: from segment `lo` on, the
data segments hold the record groups of `gs`, each index file is empty
or fully built, every non-final group is non-empty, and the arithmetic
bounds hold. -/
def DirOk (magic : Nat) (gs : List (List JRec)) (lo : Nat) (st : JDirSt) :
    Prop :=
  magic < 2^32
  ∧ st.storage + 1 = gs.length
  ∧ (∀ L, lo ≤ L → L < gs.length →
      segGet st L = some (segBytes magic (gs.getD L [])))
  ∧ (∀ L, lo ≤ L → L < gs.length →
      idxGet st L = [] ∨ idxGet st L = builtIdx st.storage L (gs.getD L []))
  ∧ (∀ i, i + 1 < gs.length → gs.getD i [] ≠ [])
  ∧ (∀ g ∈ gs, goodSeg g)

/-- Payloads still unread from checkpoint position `(ℓ, m)` on. -/
def tailPayloads (gs : List (List JRec)) (l m : Nat) : List (List Byte) :=
  (((gs.getD l []).drop m) ++ (gs.drop (l + 1)).flatten).map (·.mess)

/-- The directory after a clean resync of segment `L`: the data file is
re-opened (same contents) and the index file holds the built index. -/
def resyncUpd (magic : Nat) (gs : List (List JRec)) (st : JDirSt) (L : Nat) :
    JDirSt :=
  setIdx (setSeg st L (some (segBytes magic (gs.getD L []))))
    L (builtIdx st.storage L (gs.getD L []))

/-- One record of the writer's rotation discipline: append to the
current group, seal it when the size limit is reached. -/
def groupStep (limit : Nat) (acc : List (List JRec) × List JRec)
    (r : JRec) : List (List JRec) × List JRec :=
  let cur := acc.2 ++ [r]
  if limit ≤ sizeSum cur then (acc.1 ++ [cur], []) else (acc.1, cur)

/-- The segment grouping the writer produces: sealed groups plus the
open tail group. -/
def groupRecs (limit : Nat) (recs : List JRec) : List (List JRec) :=
  let p := recs.foldl (groupStep limit) ([], [])
  p.1 ++ [p.2]

/-- Invariant of the writer's directory between writes: the metastore
names the open group, sealed groups are on disk verbatim, no index file
has been written, and every sealed group reached the size limit.  The
current data file may not exist yet only in the pristine state. -/
def WInv (magic limit : Nat) (st : JDirSt) (done : List (List JRec))
    (cur : List JRec) : Prop :=
  st.storage = done.length
  ∧ sizeSum cur < limit
  ∧ (∀ L, L < done.length →
      segGet st L = some (segBytes magic (done.getD L [])))
  ∧ (segGet st done.length = some (segBytes magic cur)
     ∨ (done = [] ∧ cur = [] ∧ segGet st 0 = none))
  ∧ (∀ L, idxGet st L = [])
  ∧ (∀ g ∈ done, limit ≤ sizeSum g)

/-!
# Theorems

Basic facts about the byte-level primitives, then the claims.
-/

theorem le32_length (n : Nat) : (le32 n).length = 4 := rfl

theorem le64_length (n : Nat) : (le64 n).length = 8 := rfl

theorem hdrBytes_length (magic sec usec mlen : Nat) :
    (hdrBytes magic sec usec mlen).length = 16 := rfl

theorem encRec_length (magic : Nat) (r : JRec) :
    (encRec magic r).length = 16 + r.mess.length := by
  simp [encRec, hdrBytes, le32]; omega

theorem leDec_le32 (n : Nat) : leDec (le32 n) = n % 2^32 := by
  simp only [le32, leDec, List.foldr, byte]
  omega

theorem leDec_le64 (n : Nat) : leDec (le64 n) = n % 2^64 := by
  simp only [le64, leDec, List.foldr, byte]
  omega

theorem leDec_lt (bs : List Byte) : leDec bs < 256 ^ bs.length := by
  induction bs with
  | nil => simp [leDec]
  | cons b t ih =>
    simp only [leDec, List.foldr, List.length_cons] at *
    have hb := b.isLt
    have h1 : 1 ≤ 256 ^ t.length := Nat.one_le_pow _ _ (by norm_num)
    rw [pow_succ]
    omega

theorem pread_eq_some (f : List Byte) (off len : Nat)
    (h : off + len ≤ f.length) :
    pread f off len = some ((f.drop off).take len) := by
  simp [pread, h]

/-- **C2**. Index interpretation: with a size that is a multiple of 8,
a size greater than 8 whose last 8-byte entry is zero reports the
segment sealed with `size/8 - 1` records; a nonzero last entry, or a
size of 8 or 0, reports it open with `size/8` records; a size that is
not a multiple of 8 reports index corruption. -/
theorem idx_details_spec (idx : List Byte) :
    (idx.length % 8 = 0 → 8 < idx.length →
      leDec ((idx.drop (idx.length - 8)).take 8) = 0 →
      jlog_idx_details idx = .ok (idx.length / 8 - 1, true))
  ∧ (idx.length % 8 = 0 → 8 < idx.length →
      leDec ((idx.drop (idx.length - 8)).take 8) ≠ 0 →
      jlog_idx_details idx = .ok (idx.length / 8, false))
  ∧ (idx.length % 8 = 0 → idx.length ≤ 8 →
      jlog_idx_details idx = .ok (idx.length / 8, false))
  ∧ (idx.length % 8 ≠ 0 → jlog_idx_details idx = .error .IDX_CORRUPT) := by
  refine ⟨?_, ?_, ?_, ?_⟩
  · intro h0 h8 hz
    rw [jlog_idx_details, pread_eq_some _ _ _ (by omega)]
    simp [h0, h8, hz, Nat.not_lt.mpr]
  · intro h0 h8 hz
    rw [jlog_idx_details, pread_eq_some _ _ _ (by omega)]
    simp [h0, h8, hz]
  · intro h0 h8
    rw [jlog_idx_details]
    simp [h0, Nat.not_lt.mpr h8]
  · intro h0
    rw [jlog_idx_details]
    simp [h0]

theorem idx_details_spec_witness :
    jlog_idx_details (le64 5 ++ le64 0) = .ok (1, true)
  ∧ jlog_idx_details (le64 0 ++ le64 20 ++ le64 45) = .ok (3, false)
  ∧ jlog_idx_details (le64 9) = .ok (1, false)
  ∧ jlog_idx_details [byte 1, byte 2] = .error .IDX_CORRUPT :=
  ⟨(idx_details_spec (le64 5 ++ le64 0)).1 (by decide) (by decide) (by decide),
   (idx_details_spec (le64 0 ++ le64 20 ++ le64 45)).2.1 (by decide) (by decide)
     (by decide),
   (idx_details_spec (le64 9)).2.2.1 (by decide) (by decide),
   (idx_details_spec [byte 1, byte 2]).2.2.2 (by decide)⟩

/-- **C6**. Rotation under the metastore lock: when the re-read
`storage_log` still equals the writer's cached `current_log`, it is
incremented by exactly one and the new segment file is created;
otherwise the advanced value is adopted with no increment; in every
case the cached `current_log` equals `storage_log` on return. -/
theorem atomic_increment_spec (current storage : Nat)
    (h : current + 1 < 2^32) :
    (storage = current →
      metastore_atomic_increment false current storage =
        ⟨.SUCCESS, current + 1, current + 1, true⟩)
  ∧ (storage ≠ current →
      metastore_atomic_increment false current storage =
        ⟨.SUCCESS, storage, storage, false⟩)
  ∧ (∀ dataOpen, (metastore_atomic_increment dataOpen current storage).current
      = (metastore_atomic_increment dataOpen current storage).storage) := by
  refine ⟨?_, ?_, ?_⟩
  · intro he
    have hm : (current + 1) % 2^32 = current + 1 := Nat.mod_eq_of_lt h
    simp only [metastore_atomic_increment, he, hm, Bool.false_eq_true,
      if_false, if_pos rfl]
    simp
  · intro hne
    simp [metastore_atomic_increment, hne]
  · intro dataOpen
    rcases dataOpen with _ | _ <;>
      simp [metastore_atomic_increment] <;> split <;> simp

theorem atomic_increment_spec_witness :
    metastore_atomic_increment false 5 5 = ⟨.SUCCESS, 6, 6, true⟩
  ∧ metastore_atomic_increment false 5 9 = ⟨.SUCCESS, 9, 9, false⟩ :=
  ⟨(atomic_increment_spec 5 5 (by norm_num)).1 rfl,
   (atomic_increment_spec 5 9 (by norm_num)).2.1 (by norm_num)⟩

theorem hexNibble_getD :
    ∀ i : Fin 16, hexNibble (__jlog_hexchars.getD i.val ' ') = i.val := by
  decide

/-- **C9**. Subscriber-name encoding round-trip: hex-encoding a name of
nonzero bytes into the checkpoint filename suffix and decoding it with
the `jlog_ctx_list_subscribers` loop recovers the name. -/
theorem cp_suffix_round_trip (name : List Byte)
    (_h : ∀ b ∈ name, b.val ≠ 0) :
    cpDecodeSuffix (cpSuffix name) = name := by
  clear _h
  induction name with
  | nil => rfl
  | cons b t ih =>
    have hhi : (b.val / 16) < 16 := by have := b.isLt; omega
    have h1 : hexNibble (__jlog_hexchars.getD (b.val / 16) ' ') = b.val / 16 :=
      hexNibble_getD ⟨b.val / 16, hhi⟩
    have h2 : hexNibble (__jlog_hexchars.getD (b.val % 16) ' ') = b.val % 16 :=
      hexNibble_getD ⟨b.val % 16, Nat.mod_lt _ (by norm_num)⟩
    have hstep : cpSuffix (b :: t) =
        __jlog_hexchars.getD (b.val / 16) ' ' ::
        __jlog_hexchars.getD (b.val % 16) ' ' :: cpSuffix t := by
      simp [cpSuffix]
    rw [hstep]
    simp only [cpDecodeSuffix, h1, h2, ih]
    have hb := b.isLt
    have hbyte : byte (b.val / 16 * 16 + b.val % 16) = b := by
      apply Fin.ext
      simp only [byte]
      omega
    rw [hbyte]

set_option maxRecDepth 4000 in
theorem cp_suffix_round_trip_witness :
    cpDecodeSuffix (cpSuffix [byte 0xde, byte 0xad, byte 0x01]) =
      [byte 0xde, byte 0xad, byte 0x01] :=
  cp_suffix_round_trip _ (by decide)

/-- **C10**. `jlog_ctx_remove_subscriber`: returns 1 with `SUCCESS`
when the checkpoint file existed and was unlinked; 0 with
`INVALID_SUBSCRIBER` when the unlink fails with ENOENT; and -1 (leaving
`last_error` untouched) on any other unlink failure. -/
theorem remove_subscriber_spec (files : List (List Char)) (s : List Byte) :
    (('c' :: 'p' :: '.' :: cpSuffix s) ∈ files →
      jlog_ctx_remove_subscriber false files s =
        (1, some .SUCCESS, files.erase ('c' :: 'p' :: '.' :: cpSuffix s)))
  ∧ (('c' :: 'p' :: '.' :: cpSuffix s) ∉ files →
      jlog_ctx_remove_subscriber false files s =
        (0, some .INVALID_SUBSCRIBER, files))
  ∧ jlog_ctx_remove_subscriber true files s = (-1, none, files) := by
  refine ⟨?_, ?_, ?_⟩
  · intro hm
    simp [jlog_ctx_remove_subscriber, unlinkFile, hm]
  · intro hm
    simp [jlog_ctx_remove_subscriber, unlinkFile, hm]
  · simp [jlog_ctx_remove_subscriber, unlinkFile]

theorem remove_subscriber_spec_witness :
    jlog_ctx_remove_subscriber false [['c', 'p', '.', '6', '1']] [byte 0x61] =
      (1, some .SUCCESS, [])
  ∧ jlog_ctx_remove_subscriber false [] [byte 0x61] =
      (0, some .INVALID_SUBSCRIBER, []) :=
  ⟨by
    have := (remove_subscriber_spec [['c', 'p', '.', '6', '1']] [byte 0x61]).1
      (by decide)
    simpa using this,
   (remove_subscriber_spec [] [byte 0x61]).2.1 (by decide)⟩

/-- **C3**. `read_message` id validation in read mode: `marker = 0`
fails `ILLEGAL_LOGID`; a zero index entry with `marker ≠ 1` yields the
`CLOSE_LOGID` sentinel when the slot is the last one of the index and
`IDX_CORRUPT` when it is not; a marker with `marker * 8 > index size`
fails `ILLEGAL_LOGID`. -/
theorem read_message_id_validation (d : List Byte) (idx : List Byte)
    (id : JId) :
    (id.marker = 0 → ∀ data,
      jlog_ctx_read_message_once .READ data idx id = .err .ILLEGAL_LOGID)
  ∧ (idx.length % 8 = 0 → 1 ≤ id.marker → id.marker * 8 > idx.length →
      jlog_ctx_read_message_once .READ (some d) idx id = .err .ILLEGAL_LOGID)
  ∧ (idx.length % 8 = 0 → 2 ≤ id.marker → id.marker * 8 ≤ idx.length →
      leDec ((idx.drop ((id.marker - 1) * 8)).take 8) = 0 →
      ((id.marker * 8 = idx.length →
          jlog_ctx_read_message_once .READ (some d) idx id = .err .CLOSE_LOGID)
       ∧ (id.marker * 8 < idx.length →
          jlog_ctx_read_message_once .READ (some d) idx id =
            .err .IDX_CORRUPT))) := by
  refine ⟨?_, ?_, ?_⟩
  · intro hm data
    simp [jlog_ctx_read_message_once, hm]
  · intro h0 h1 hgt
    have hm1 : ¬ id.marker < 1 := by omega
    simp [jlog_ctx_read_message_once, hm1, h0, hgt]
  · intro h0 h2 hle hz
    have hpread : pread idx ((id.marker - 1) * 8) 8 =
        some ((idx.drop ((id.marker - 1) * 8)).take 8) :=
      pread_eq_some _ _ _ (by omega)
    have hm1 : ¬ id.marker < 1 := by omega
    have hgt' : ¬ id.marker * 8 > idx.length := by omega
    have hne1 : id.marker ≠ 1 := by omega
    constructor
    · intro hlast
      simp [jlog_ctx_read_message_once, hm1, h0, hgt', hpread, hz, hne1, hlast]
    · intro hmid
      have hne : ¬ id.marker * 8 = idx.length := by omega
      simp [jlog_ctx_read_message_once, hm1, h0, hgt', hpread, hz, hne1, hne]

theorem read_message_id_validation_witness :
    jlog_ctx_read_message_once .READ (some []) (le64 0) ⟨0, 0⟩ =
      .err .ILLEGAL_LOGID
  ∧ jlog_ctx_read_message_once .READ (some []) (le64 0) ⟨0, 2⟩ =
      .err .ILLEGAL_LOGID
  ∧ jlog_ctx_read_message_once .READ (some (segBytes 7 [⟨0, 0, []⟩]))
      (le64 0 ++ le64 0) ⟨0, 2⟩ = .err .CLOSE_LOGID
  ∧ jlog_ctx_read_message_once .READ (some (segBytes 7 [⟨0, 0, []⟩]))
      (le64 0 ++ le64 0 ++ le64 16) ⟨0, 2⟩ = .err .IDX_CORRUPT :=
  ⟨(read_message_id_validation [] (le64 0) ⟨0, 0⟩).1 rfl (some []),
   (read_message_id_validation [] (le64 0) ⟨0, 2⟩).2.1 (by decide) (by decide)
     (by decide),
   ((read_message_id_validation (segBytes 7 [⟨0, 0, []⟩]) (le64 0 ++ le64 0)
       ⟨0, 2⟩).2.2 (by decide) (by decide) (by decide) (by decide)).1 (by decide),
   ((read_message_id_validation (segBytes 7 [⟨0, 0, []⟩])
       (le64 0 ++ le64 0 ++ le64 16) ⟨0, 2⟩).2.2 (by decide) (by decide)
     (by decide) (by decide)).2 (by decide)⟩

/-- **C8** (counter-evidence). Bounds check underflow: on a map of 8
bytes (shorter than one header) with index entry 0 and marker 1, the
guard `data_off > mmap_len - sizeof(jlog_message_header)` wraps in
`size_t` and passes, and the header `memcpy` dereferences bytes beyond
the mapped length instead of failing `IDX_CORRUPT`. -/
theorem read_message_short_map_oob :
    jlog_ctx_read_message_once .READ (some (List.replicate 8 (0 : Byte)))
      (le64 0) ⟨0, 1⟩ = .oob := by decide

/-- When the map is long enough for at least one header (and below the
`size_t` range) the guards do work: no access past the map occurs. -/
theorem read_message_no_oob_of_header_fits (mode : CtxMode)
    (d idx : List Byte) (id : JId) (h16 : 16 ≤ d.length)
    (hlt : d.length < 2^64) :
    jlog_ctx_read_message_once mode (some d) idx id ≠ .oob := by
  have hmod : (d.length + 2^64 - 16) % 2^64 = d.length - 16 := by
    have h1 : d.length + 2^64 - 16 = (d.length - 16) + 2^64 := by omega
    rw [h1, Nat.add_mod_right]
    exact Nat.mod_eq_of_lt (by omega)
  simp only [jlog_ctx_read_message_once, hmod]
  split
  · simp
  split
  · simp
  split
  · simp
  split
  · simp
  split
  · simp
  rename_i eb heq
  split
  · split <;> simp
  split
  · simp
  rename_i hguard
  have hsome : readHdr d (leDec eb) ≠ none := by
    rw [readHdr, pread_eq_some _ _ _ (by omega)]
    simp
  split
  · rename_i hh
    exact absurd hh hsome
  · split <;> simp

theorem le64_flatten_length (l : List Nat) :
    ((l.map le64).flatten).length = 8 * l.length := by
  induction l with
  | nil => simp
  | cons a t ih => simp [ih, le64_length]; omega

theorem sealStep_idx_eq (storage log data_len finalOff : Nat)
    (idx : List Byte) :
    (sealStep storage log data_len finalOff idx.length idx).idx =
      if log < storage ∧ finalOff = data_len ∧ idx ≠ [] then idx ++ le64 0
      else idx := by
  rw [sealStep]
  by_cases h1 : log < storage <;> by_cases h2 : finalOff = data_len <;>
    by_cases h3 : idx = [] <;>
    simp [h1, h2, h3, List.length_eq_zero]

/-- **C4**. Resync seals a segment (appends the single terminating zero
entry) iff the segment id is below `storage_log`, the forward scan
consumed exactly `data_len` bytes, and the index is non-empty at that
point; an empty index is never sealed; a short scan on an immutable
segment fails `FILE_CORRUPT` instead of sealing.  `sealStep` is the
post-scan tail of `___jlog_resync_index` (invoked by
`resyncScanTail` whenever the scan succeeds, with the index already
extended by all scanned offsets). -/
theorem resync_seal_iff (storage log data_len finalOff : Nat)
    (idx : List Byte) :
    ((sealStep storage log data_len finalOff idx.length idx).idx =
        idx ++ le64 0
      ↔ (log < storage ∧ finalOff = data_len ∧ idx ≠ []))
  ∧ (log < storage → finalOff ≠ data_len →
      sealStep storage log data_len finalOff idx.length idx =
        ⟨.FILE_CORRUPT, idx, ⟨log, idx.length / 8⟩, false⟩)
  ∧ (idx = [] → (sealStep storage log data_len finalOff idx.length idx).idx = [])
  ∧ (storage ≤ log →
      sealStep storage log data_len finalOff idx.length idx =
        ⟨.SUCCESS, idx, ⟨log, idx.length / 8⟩, false⟩)
  ∧ (∀ magic (d : List Byte) data_off offs finalOff',
      scanLoop d magic data_off = (.SUCCESS, offs, finalOff') →
      resyncScanTail magic storage log d idx data_off =
        .inl (sealStep storage log d.length finalOff'
          (idx.length + 8 * offs.length) (idx ++ (offs.map le64).flatten))) := by
  have hne : idx ++ le64 0 ≠ idx := by
    intro hcon
    have := congrArg List.length hcon
    simp [le64_length] at this
  refine ⟨?_, ?_, ?_, ?_, ?_⟩
  · rw [sealStep_idx_eq]
    split
    · rename_i hcond
      exact iff_of_true rfl hcond
    · rename_i hcond
      exact iff_of_false (fun h => hne h.symm) hcond
  · intro h1 h2
    simp [sealStep, h1, h2]
  · intro hnil
    subst hnil
    have := sealStep_idx_eq storage log data_len finalOff []
    simpa using this
  · intro h1
    simp [sealStep, Nat.not_lt.mpr h1]
  · intro magic d data_off offs finalOff' hscan
    rw [resyncScanTail, hscan]
    simp

theorem resync_seal_iff_witness :
    (sealStep 1 0 17 17 (le64 0).length (le64 0)).idx = le64 0 ++ le64 0
  ∧ sealStep 1 0 17 13 (le64 0).length (le64 0) =
      ⟨.FILE_CORRUPT, le64 0, ⟨0, 1⟩, false⟩
  ∧ (sealStep 1 0 0 0 (List.length ([] : List Byte)) []).idx = []
  ∧ sealStep 0 0 17 17 (le64 0).length (le64 0) =
      ⟨.SUCCESS, le64 0, ⟨0, 1⟩, false⟩ :=
  ⟨(resync_seal_iff 1 0 17 17 (le64 0)).1.mpr ⟨by decide, rfl, by decide⟩,
   (resync_seal_iff 1 0 17 13 (le64 0)).2.1 (by decide) (by decide),
   (resync_seal_iff 1 0 0 0 []).2.2.1 rfl,
   (resync_seal_iff 0 0 17 17 (le64 0)).2.2.2.1 (by decide)⟩

theorem RsLoopOut_attempts (d : Option (List Byte)) (i : List Byte)
    (r : RsOut) (a p : Nat) : (RsLoopOut.mk d i r a p).attempts = a := rfl

theorem RsLoopOut_repairs (d : Option (List Byte)) (i : List Byte)
    (r : RsOut) (a p : Nat) : (RsLoopOut.mk d i r a p).repairs = p := rfl

theorem resyncLoopGo_bounds (magic storage log : Nat) :
    ∀ (rem : Nat) (data : Option (List Byte)) (idx : List Byte)
      (att rep : Nat),
      (resyncLoopGo magic storage log rem data idx att rep).attempts ≤
        att + rem + 1
    ∧ (resyncLoopGo magic storage log rem data idx att rep).repairs ≤
        rep + rem + 1 := by
  intro rem
  induction rem with
  | zero =>
    intro data idx att rep
    rw [resyncLoopGo]
    split <;>
      exact ⟨by simp only [RsLoopOut_attempts]; omega,
             by simp only [RsLoopOut_repairs]; omega⟩
  | succ m ih =>
    intro data idx att rep
    rw [resyncLoopGo]
    split
    · exact ⟨by simp only [RsLoopOut_attempts]; omega,
             by simp only [RsLoopOut_repairs]; omega⟩
    · have := ih ((jlog_repair_datafile magic data).2.1) [] (att + 1) (rep + 1)
      exact ⟨by omega, by omega⟩

/-- **C5**. Resync retry policy.  On restartable index corruption (for
instance an index size that is not a multiple of 8)
`___jlog_resync_index` truncates the index to the last known good
boundary (`index_off`, here the current size), retries exactly once
inside the attempt, and surfaces `IDX_CORRUPT` when the retry fails
again.  The outer loop `__jlog_resync_index` performs exactly one
attempt with no datafile repair when `log ≥ storage_log`; when
`log < storage_log` a failed attempt is followed by
`jlog_repair_datafile` and truncation of the index to zero before the
retry; at most 4 attempts (and 4 repairs) happen in total. -/
theorem resync_retry_policy (magic storage log : Nat) (d : List Byte)
    (data : Option (List Byte)) (idx : List Byte) :
    (idx.length % 8 ≠ 0 →
      (resyncPass magic storage log d idx = .inr (idx.take idx.length)
       ∧ resync_index_attempt magic storage log (some d) idx =
          ⟨.IDX_CORRUPT, idx, ⟨log, 0⟩, false⟩))
  ∧ (storage ≤ log →
      resync_index magic storage log data idx =
        ⟨data, (resync_index_attempt magic storage log data idx).idx,
         resync_index_attempt magic storage log data idx, 1, 0⟩)
  ∧ (log < storage →
      (resync_index_attempt magic storage log data idx).err ≠ .SUCCESS →
      (resync_index_attempt magic storage log data idx).err ≠ .FILE_OPEN →
      (resync_index_attempt magic storage log data idx).err ≠ .IDX_OPEN →
      resync_index magic storage log data idx =
        resyncLoopGo magic storage log 2
          ((jlog_repair_datafile magic data).2.1) [] 1 1)
  ∧ ((resync_index magic storage log data idx).attempts ≤ 4
     ∧ (resync_index magic storage log data idx).repairs ≤ 4) := by
  refine ⟨?_, ?_, ?_, ?_⟩
  · intro h8
    have hpass : resyncPass magic storage log d idx = .inr (idx.take idx.length) := by
      rw [resyncPass]
      simp [h8]
    have hpass' : resyncPass magic storage log d idx = .inr idx := by
      rw [hpass, List.take_length]
    refine ⟨hpass, ?_⟩
    rw [resync_index_attempt, hpass']
    simp only [hpass']
  · intro hst
    rw [resync_index, resyncLoopGo]
    rw [if_pos (Or.inr (Or.inr (Or.inr hst)))]
  · intro hlt h1 h2 h3
    rw [resync_index, resyncLoopGo]
    rw [if_neg]
    simp only [h1, h2, h3, false_or]
    omega
  · have := resyncLoopGo_bounds magic storage log 3 data idx 0 0
    rw [resync_index]
    exact ⟨by omega, by omega⟩

theorem resync_retry_policy_witness :
    resync_index_attempt 7 1 0 (some []) [byte 1, byte 2, byte 3] =
      ⟨.IDX_CORRUPT, [byte 1, byte 2, byte 3], ⟨0, 0⟩, false⟩
  ∧ resync_index 7 0 0 (some [byte 5]) [] =
      ⟨some [byte 5], (resync_index_attempt 7 0 0 (some [byte 5]) []).idx,
       resync_index_attempt 7 0 0 (some [byte 5]) [], 1, 0⟩
  ∧ (resync_index 7 1 0 (some [byte 5]) []).attempts ≤ 4 := by
  refine ⟨?_, ?_, ?_⟩
  · have h := ((resync_retry_policy 7 1 0 [] (some []) [byte 1, byte 2, byte 3]).1
      (by decide)).2
    simpa using h
  · exact (resync_retry_policy 7 0 0 [] (some [byte 5]) []).2.1 (by decide)
  · exact ((resync_retry_policy 7 1 0 [] (some [byte 5]) []).2.2.2).1

theorem CpDir_dataExists (c : List (List Byte × JId)) (dE iE : Nat → Bool) :
    (CpDir.mk c dE iE).dataExists = dE := rfl

theorem CpDir_idxExists (c : List (List Byte × JId)) (dE iE : Nat → Bool) :
    (CpDir.mk c dE iE).idxExists = iE := rfl

theorem sweepGo_spec (cps : List JId) (upto : Nat) :
    ∀ (n log : Nat) (dE iE : Nat → Bool) (L : Nat), upto - log = n →
      ((sweepGo cps dE iE log upto).1 L =
        if log ≤ L ∧ L < upto ∧ jlog_pending_readers cps L = 0 then false
        else dE L)
    ∧ ((sweepGo cps dE iE log upto).2 L =
        if log ≤ L ∧ L < upto ∧ jlog_pending_readers cps L = 0 then false
        else iE L) := by
  intro n
  induction n with
  | zero =>
    intro log dE iE L h0
    rw [sweepGo, dif_neg (by omega)]
    constructor <;> rw [if_neg (by rintro ⟨a, b, _⟩; omega)]
  | succ n ih =>
    intro log dE iE L h0
    rw [sweepGo, dif_pos (by omega)]
    split
    · rename_i hp
      have H := ih (log + 1)
        (fun L' => if L' = log then false else dE L')
        (fun L' => if L' = log then false else iE L') L (by omega)
      refine ⟨?_, ?_⟩
      · rw [H.1]
        by_cases hL : L = log
        · subst hL
          rw [if_neg (by rintro ⟨a, _, _⟩; omega),
              if_pos ⟨le_refl _, by omega, hp⟩]
          simp
        · by_cases hc : log + 1 ≤ L ∧ L < upto ∧ jlog_pending_readers cps L = 0
          · rw [if_pos hc, if_pos ⟨by omega, hc.2⟩]
          · rw [if_neg hc, if_neg (by
              rintro ⟨a, b, c⟩
              exact hc ⟨by omega, b, c⟩)]
            simp [hL]
      · rw [H.2]
        by_cases hL : L = log
        · subst hL
          rw [if_neg (by rintro ⟨a, _, _⟩; omega),
              if_pos ⟨le_refl _, by omega, hp⟩]
          simp
        · by_cases hc : log + 1 ≤ L ∧ L < upto ∧ jlog_pending_readers cps L = 0
          · rw [if_pos hc, if_pos ⟨by omega, hc.2⟩]
          · rw [if_neg hc, if_neg (by
              rintro ⟨a, b, c⟩
              exact hc ⟨by omega, b, c⟩)]
            simp [hL]
    · rename_i hp
      have H := ih (log + 1) dE iE L (by omega)
      refine ⟨?_, ?_⟩
      · rw [H.1]
        by_cases hL : L = log
        · subst hL
          rw [if_neg (by rintro ⟨a, _, _⟩; omega),
              if_neg (by rintro ⟨_, _, c⟩; exact hp c)]
        · by_cases hc : log + 1 ≤ L ∧ L < upto ∧ jlog_pending_readers cps L = 0
          · rw [if_pos hc, if_pos ⟨by omega, hc.2⟩]
          · rw [if_neg hc, if_neg (by
              rintro ⟨a, b, c⟩
              exact hc ⟨by omega, b, c⟩)]
      · rw [H.2]
        by_cases hL : L = log
        · subst hL
          rw [if_neg (by rintro ⟨a, _, _⟩; omega),
              if_neg (by rintro ⟨_, _, c⟩; exact hp c)]
        · by_cases hc : log + 1 ≤ L ∧ L < upto ∧ jlog_pending_readers cps L = 0
          · rw [if_pos hc, if_pos ⟨by omega, hc.2⟩]
          · rw [if_neg hc, if_neg (by
              rintro ⟨a, b, c⟩
              exact hc ⟨by omega, b, c⟩)]

theorem pending_pos_of_mem (cps : List JId) (L : Nat) (p : JId)
    (hp : p ∈ cps) (hle : p.log ≤ L) :
    0 < jlog_pending_readers cps L := by
  rw [jlog_pending_readers]
  have : p ∈ cps.filter (fun id => id.log ≤ L) :=
    List.mem_filter.mpr ⟨hp, by simpa using hle⟩
  exact List.length_pos.mpr (fun hnil => by simp [hnil] at this)

/-- **C7**. Retention on checkpoint advance: after a successful
`set_checkpoint(s, id)`, every segment in `[old.log, id.log)` whose
pending-reader count (against the freshly written checkpoint files) is
zero has both its data file and its index file unlinked; any segment
with at least one pending reader is untouched, as is every segment
outside the sweep range; in particular a segment at or above any
stored checkpoint log (hence at or above the minimum) survives. -/
theorem set_checkpoint_retention (dir : CpDir) (s : List Byte)
    (id old : JId) (hold : cpLookup dir.cps s = some old) (L : Nat) :
    ∃ dir', jlog_set_checkpoint dir s id = some dir'
    ∧ dir'.cps = cpUpdate dir.cps s id
    ∧ (old.log ≤ L → L < id.log →
        jlog_pending_readers ((cpUpdate dir.cps s id).map (·.2)) L = 0 →
        dir'.dataExists L = false ∧ dir'.idxExists L = false)
    ∧ (0 < jlog_pending_readers ((cpUpdate dir.cps s id).map (·.2)) L →
        dir'.dataExists L = dir.dataExists L
        ∧ dir'.idxExists L = dir.idxExists L)
    ∧ ((L < old.log ∨ id.log ≤ L) →
        dir'.dataExists L = dir.dataExists L
        ∧ dir'.idxExists L = dir.idxExists L)
    ∧ (∀ p ∈ cpUpdate dir.cps s id, p.2.log ≤ L →
        dir'.dataExists L = dir.dataExists L
        ∧ dir'.idxExists L = dir.idxExists L) := by
  refine ⟨_, by rw [jlog_set_checkpoint, hold], rfl, ?_, ?_, ?_, ?_⟩
  · intro h1 h2 h3
    have H := sweepGo_spec ((cpUpdate dir.cps s id).map (·.2)) id.log
      (id.log - old.log) old.log dir.dataExists dir.idxExists L rfl
    simp only [CpDir_dataExists, CpDir_idxExists]
    rw [H.1, H.2, if_pos ⟨h1, h2, h3⟩, if_pos ⟨h1, h2, h3⟩]
    exact ⟨rfl, rfl⟩
  · intro hpos
    have H := sweepGo_spec ((cpUpdate dir.cps s id).map (·.2)) id.log
      (id.log - old.log) old.log dir.dataExists dir.idxExists L rfl
    simp only [CpDir_dataExists, CpDir_idxExists]
    rw [H.1, H.2, if_neg (by rintro ⟨_, _, c⟩; omega),
        if_neg (by rintro ⟨_, _, c⟩; omega)]
    exact ⟨rfl, rfl⟩
  · intro hout
    have H := sweepGo_spec ((cpUpdate dir.cps s id).map (·.2)) id.log
      (id.log - old.log) old.log dir.dataExists dir.idxExists L rfl
    simp only [CpDir_dataExists, CpDir_idxExists]
    rw [H.1, H.2, if_neg (by rintro ⟨a, b, _⟩; omega),
        if_neg (by rintro ⟨a, b, _⟩; omega)]
    exact ⟨rfl, rfl⟩
  · intro p hp hple
    have hpos : 0 < jlog_pending_readers ((cpUpdate dir.cps s id).map (·.2)) L :=
      pending_pos_of_mem _ _ p.2 (List.mem_map.mpr ⟨p, hp, rfl⟩) hple
    have H := sweepGo_spec ((cpUpdate dir.cps s id).map (·.2)) id.log
      (id.log - old.log) old.log dir.dataExists dir.idxExists L rfl
    simp only [CpDir_dataExists, CpDir_idxExists]
    rw [H.1, H.2, if_neg (by rintro ⟨_, _, c⟩; omega),
        if_neg (by rintro ⟨_, _, c⟩; omega)]
    exact ⟨rfl, rfl⟩

theorem set_checkpoint_retention_witness :
    ∃ dir', jlog_set_checkpoint
        ⟨[([byte 1], ⟨0, 5⟩), ([byte 2], ⟨2, 0⟩)], fun _ => true, fun _ => true⟩
        [byte 1] ⟨2, 1⟩ = some dir'
    ∧ dir'.cps = cpUpdate [([byte 1], ⟨0, 5⟩), ([byte 2], ⟨2, 0⟩)] [byte 1] ⟨2, 1⟩
    ∧ (0 ≤ 0 → 0 < 2 →
        jlog_pending_readers ((cpUpdate [([byte 1], ⟨0, 5⟩), ([byte 2], ⟨2, 0⟩)]
          [byte 1] ⟨2, 1⟩).map (·.2)) 0 = 0 →
        dir'.dataExists 0 = false ∧ dir'.idxExists 0 = false)
    ∧ (0 < jlog_pending_readers ((cpUpdate [([byte 1], ⟨0, 5⟩), ([byte 2], ⟨2, 0⟩)]
          [byte 1] ⟨2, 1⟩).map (·.2)) 0 →
        dir'.dataExists 0 = true ∧ dir'.idxExists 0 = true)
    ∧ ((0 < 0 ∨ 2 ≤ 0) →
        dir'.dataExists 0 = true ∧ dir'.idxExists 0 = true)
    ∧ (∀ p ∈ cpUpdate [([byte 1], ⟨0, 5⟩), ([byte 2], ⟨2, 0⟩)] [byte 1] ⟨2, 1⟩,
        p.2.log ≤ 0 →
        dir'.dataExists 0 = true ∧ dir'.idxExists 0 = true) :=
  set_checkpoint_retention
    ⟨[([byte 1], ⟨0, 5⟩), ([byte 2], ⟨2, 0⟩)], fun _ => true, fun _ => true⟩
    [byte 1] ⟨2, 1⟩ ⟨0, 5⟩ (by decide) 0

/-!
## Round-trip groundwork: slicing the byte encodings
-/

theorem segBytes_nil (magic : Nat) : segBytes magic [] = [] := rfl

theorem segBytes_cons (magic : Nat) (r : JRec) (t : List JRec) :
    segBytes magic (r :: t) = encRec magic r ++ segBytes magic t := by
  simp [segBytes]

theorem segBytes_append (magic : Nat) (g1 g2 : List JRec) :
    segBytes magic (g1 ++ g2) = segBytes magic g1 ++ segBytes magic g2 := by
  simp [segBytes]

theorem segBytes_length (magic : Nat) (g : List JRec) :
    (segBytes magic g).length = sizeSum g := by
  induction g with
  | nil => rfl
  | cons r t ih =>
    rw [segBytes_cons]
    simp [ih, encRec_length, sizeSum, recSize, List.sum_cons]

theorem sizeSum_cons (r : JRec) (t : List JRec) :
    sizeSum (r :: t) = recSize r + sizeSum t := by
  simp [sizeSum]

theorem sizeSum_append (g1 g2 : List JRec) :
    sizeSum (g1 ++ g2) = sizeSum g1 + sizeSum g2 := by
  simp [sizeSum]

/-- Reading the 16 header bytes at a record boundary. -/
theorem readHdr_at_rec (magic : Nat) (pre rest : List Byte) (r : JRec) (d : List Byte)
    (hd : d = pre ++ (encRec magic r ++ rest)) :
    readHdr d pre.length = some (magic % 2^32, r.mess.length % 2^32) := by
  subst hd
  rw [readHdr, pread_eq_some _ _ _ (by
    simp only [List.length_append, encRec_length]
    omega)]
  have h1 : (((pre ++ (encRec magic r ++ rest)).drop pre.length).take 16) =
      hdrBytes magic r.sec r.usec r.mess.length := by
    rw [List.drop_left]
    rw [encRec, List.append_assoc]
    rw [List.take_append_of_le_length (by simp [hdrBytes_length])]
    exact List.take_of_length_le (by simp [hdrBytes_length])
  rw [h1]
  have htake4 : (hdrBytes magic r.sec r.usec r.mess.length).take 4 =
      le32 magic := by
    simp [hdrBytes, le32]
  have hdrop12 : ((hdrBytes magic r.sec r.usec r.mess.length).drop 12).take 4 =
      le32 r.mess.length := by
    simp [hdrBytes, le32]
  simp [htake4, hdrop12, leDec_le32]

/-- The payload bytes at a record boundary. -/
theorem payload_at_rec (magic : Nat) (pre rest : List Byte) (r : JRec) (d : List Byte)
    (hd : d = pre ++ (encRec magic r ++ rest)) :
    (d.drop (pre.length + 16)).take r.mess.length = r.mess := by
  subst hd
  have h1 : pre ++ (encRec magic r ++ rest) =
      (pre ++ hdrBytes magic r.sec r.usec r.mess.length) ++ (r.mess ++ rest) := by
    rw [encRec]
    simp [List.append_assoc]
  rw [h1]
  have h2 : pre.length + 16 =
      (pre ++ hdrBytes magic r.sec r.usec r.mess.length).length := by
    simp [hdrBytes_length]
  rw [h2, List.drop_left]
  rw [List.take_append_of_le_length (le_refl _), List.take_of_length_le (le_refl _)]

/-- The forward scan of `___jlog_resync_index` over a clean segment
finds exactly the record offsets and consumes all bytes. -/
theorem scanLoop_clean (magic : Nat) (hmagic : magic < 2^32) :
    ∀ (g : List JRec) (pre : List Byte) (d : List Byte),
      d = pre ++ segBytes magic g →
      (∀ r ∈ g, r.mess.length < 2^32) →
      scanLoop d magic pre.length =
        (.SUCCESS, offsetsFrom pre.length g, d.length) := by
  intro g
  induction g with
  | nil =>
    intro pre d hd hb
    subst hd
    rw [scanLoop]
    simp [segBytes_nil, offsetsFrom]
  | cons r t ih =>
    intro pre d hd hb
    have hr : r.mess.length < 2^32 := hb r (by simp)
    have hd' : d = pre ++ (encRec magic r ++ segBytes magic t) := by
      rw [hd, segBytes_cons]
    have hlen : d.length = pre.length + (16 + r.mess.length) +
        (segBytes magic t).length := by
      rw [hd']
      simp [encRec_length]
      omega
    rw [scanLoop]
    rw [dif_pos (by omega)]
    rw [readHdr_at_rec magic pre (segBytes magic t) r d hd']
    simp only []
    have hmm : magic % 2^32 = magic := Nat.mod_eq_of_lt hmagic
    rw [if_neg (fun hx => hx hmm)]
    rw [dif_neg (by
      rw [Nat.mod_eq_of_lt hr]
      omega)]
    have hpre' : d = (pre ++ encRec magic r) ++ segBytes magic t := by
      rw [hd']
      simp [List.append_assoc]
    have ihx := ih (pre ++ encRec magic r) d hpre'
      (fun r' hr' => hb r' (by simp [hr']))
    have hplen : (pre ++ encRec magic r).length =
        pre.length + 16 + r.mess.length % 2^32 := by
      simp only [List.length_append, encRec_length, Nat.mod_eq_of_lt hr]
      omega
    rw [← hplen, ihx]
    rw [offsetsFrom]
    have : pre.length + recSize r = (pre ++ encRec magic r).length := by
      simp only [List.length_append, encRec_length, recSize]
    rw [this]

/-!
## Round-trip groundwork: the index files of clean segments
-/

theorem offsetsFrom_length : ∀ (g : List JRec) (base : Nat),
    (offsetsFrom base g).length = g.length := by
  intro g
  induction g with
  | nil => intro base; rfl
  | cons r t ih =>
    intro base
    rw [offsetsFrom]
    simp [ih]

theorem offsetsFrom_getD : ∀ (g : List JRec) (base k : Nat), k < g.length →
    (offsetsFrom base g).getD k 0 = base + sizeSum (g.take k) := by
  intro g
  induction g with
  | nil => intro base k hk; simp at hk
  | cons r t ih =>
    intro base k hk
    rw [offsetsFrom]
    match k with
    | 0 => simp [sizeSum]
    | k' + 1 =>
      have := ih (base + recSize r) k' (by simpa using hk)
      simp only [List.getD_cons_succ, this, List.take_succ_cons, sizeSum,
        List.map_cons, List.sum_cons]
      omega

theorem openIdx_length (g : List JRec) : (openIdx g).length = 8 * g.length := by
  rw [openIdx, le64_flatten_length, offsetsFrom_length]

theorem sealedIdx_length (g : List JRec) :
    (sealedIdx g).length = 8 * (g.length + 1) := by
  rw [sealedIdx]
  simp [openIdx_length, le64_length]
  omega

theorem flat_le64_drop : ∀ (l : List Nat) (k : Nat), k < l.length →
    ((l.map le64).flatten).drop (8 * k) =
      le64 (l.getD k 0) ++ ((l.drop (k + 1)).map le64).flatten := by
  intro l
  induction l with
  | nil => intro k hk; simp at hk
  | cons a t ih =>
    intro k hk
    match k with
    | 0 => simp
    | k' + 1 =>
      have h8 : 8 * (k' + 1) = (le64 a).length + 8 * k' := by
        simp [le64_length]; omega
      simp only [List.map_cons, List.flatten_cons, h8, List.drop_append,
        List.getD_cons_succ, List.drop_succ_cons]
      exact ih k' (by simpa using hk)

/-- Reading the `k`-th 8-byte entry of a packed offset array (possibly
followed by further index bytes). -/
theorem idx_entry_read (l : List Nat) (suffix : List Byte) (k : Nat)
    (hk : k < l.length) :
    pread ((l.map le64).flatten ++ suffix) (8 * k) 8 =
      some (le64 (l.getD k 0)) := by
  have hlen : ((l.map le64).flatten).length = 8 * l.length :=
    le64_flatten_length l
  rw [pread_eq_some _ _ _ (by simp [hlen]; omega)]
  congr 1
  have h1 : ((l.map le64).flatten ++ suffix).drop (8 * k) =
      le64 (l.getD k 0) ++ (((l.drop (k + 1)).map le64).flatten ++ suffix) := by
    rw [List.drop_append_of_le_length (by omega)]
    rw [flat_le64_drop l k hk, List.append_assoc]
  rw [h1, List.take_append_of_le_length (by simp [le64_length]),
      List.take_of_length_le (by simp [le64_length])]

/-- Decomposing a clean segment at record `k`. -/
theorem segBytes_decomp (magic : Nat) (g : List JRec) (k : Nat)
    (hk : k < g.length) :
    segBytes magic g = segBytes magic (g.take k) ++
      (encRec magic (g.getD k default) ++ segBytes magic (g.drop (k + 1))) := by
  conv_lhs => rw [← List.take_append_drop k g]
  rw [segBytes_append]
  congr 1
  have hdrop : g.drop k = g.getD k default :: g.drop (k + 1) := by
    rw [List.getD_eq_getElem g default hk]
    exact List.drop_eq_getElem_cons hk
  rw [hdrop, segBytes_cons]

theorem sizeSum_take_le (g : List JRec) (k : Nat) :
    sizeSum (g.take k) ≤ sizeSum g := by
  conv_rhs => rw [← List.take_append_drop k g]
  rw [sizeSum_append]
  omega

theorem sizeSum_take_pos (g : List JRec) (k : Nat) (hk : 1 ≤ k)
    (hlen : k ≤ g.length) :
    16 ≤ sizeSum (g.take k) := by
  match g, k with
  | r :: t, k' + 1 =>
    simp only [List.take_succ_cons, sizeSum_cons]
    have : 16 ≤ recSize r := by simp [recSize]
    omega
  | [], k' + 1 => simp at hlen

theorem sizeSum_take_add (g : List JRec) (k : Nat) (hk : k < g.length) :
    sizeSum (g.take k) + recSize (g.getD k default) +
      sizeSum (g.drop (k + 1)) = sizeSum g := by
  conv_rhs => rw [← List.take_append_drop k g]
  rw [sizeSum_append]
  have hdrop : g.drop k = g.getD k default :: g.drop (k + 1) := by
    rw [List.getD_eq_getElem g default hk]
    exact List.drop_eq_getElem_cons hk
  rw [hdrop, sizeSum_cons]
  omega

/-!
## Round-trip groundwork: resync over a clean segment
-/

theorem sealStep_clean (storage log : Nat) (g : List JRec) :
    sealStep storage log (sizeSum g) (sizeSum g) (8 * g.length) (openIdx g) =
      ⟨.SUCCESS, builtIdx storage log g, ⟨log, g.length⟩,
        decide (log < storage)⟩ := by
  have hdiv : 8 * g.length / 8 = g.length := by omega
  rw [sealStep]
  by_cases h1 : log < storage
  · by_cases h2 : g = []
    · subst h2
      simp [builtIdx, openIdx, offsetsFrom, h1]
    · have h3 : 8 * g.length ≠ 0 := by
        have : g.length ≠ 0 := fun h => h2 (List.eq_nil_of_length_eq_zero h)
        omega
      simp [h1, h2, h3, hdiv, builtIdx, sealedIdx]
  · simp [h1, hdiv, builtIdx]

theorem resyncPass_fresh (magic storage log : Nat) (g : List JRec)
    (hmagic : magic < 2^32) (hg : ∀ r ∈ g, r.mess.length < 2^32) :
    resyncPass magic storage log (segBytes magic g) [] =
      .inl (sealStep storage log (sizeSum g) (sizeSum g) (8 * g.length)
        (openIdx g)) := by
  have hscan : scanLoop (segBytes magic g) magic 0 =
      (.SUCCESS, offsetsFrom 0 g, (segBytes magic g).length) := by
    simpa using scanLoop_clean magic hmagic g [] (segBytes magic g) (by simp) hg
  rw [resyncPass]
  simp only [List.length_nil]
  rw [if_neg (by omega), if_neg (by omega)]
  rw [resyncAdvance]
  rw [if_neg (by simp)]
  rw [resyncScanTail, hscan]
  simp only []
  rw [if_neg (fun hx => hx rfl)]
  simp only [List.nil_append, List.length_nil, Nat.zero_add]
  rw [segBytes_length, offsetsFrom_length]
  rfl

theorem resync_attempt_of_pass (magic storage log : Nat) (g : List JRec)
    (idx : List Byte)
    (hpass : resyncPass magic storage log (segBytes magic g) idx =
      .inl (sealStep storage log (sizeSum g) (sizeSum g) (8 * g.length)
        (openIdx g))) :
    resync_index_attempt magic storage log (some (segBytes magic g)) idx =
      ⟨.SUCCESS, builtIdx storage log g, ⟨log, g.length⟩,
        decide (log < storage)⟩ := by
  rw [resync_index_attempt]
  rw [hpass]
  exact sealStep_clean storage log g

theorem resync_attempt_fresh (magic storage log : Nat) (g : List JRec)
    (hmagic : magic < 2^32) (hg : ∀ r ∈ g, r.mess.length < 2^32) :
    resync_index_attempt magic storage log (some (segBytes magic g)) [] =
      ⟨.SUCCESS, builtIdx storage log g, ⟨log, g.length⟩,
        decide (log < storage)⟩ :=
  resync_attempt_of_pass magic storage log g []
    (resyncPass_fresh magic storage log g hmagic hg)

theorem resync_attempt_sealed (magic storage log : Nat) (d : List Byte)
    (g : List JRec) (hne : g ≠ []) :
    resync_index_attempt magic storage log (some d) (sealedIdx g) =
      ⟨.SUCCESS, sealedIdx g, ⟨log, g.length⟩, true⟩ := by
  have hn : 1 ≤ g.length := by
    rcases g with _ | ⟨r, t⟩
    · exact absurd rfl hne
    · simp
  have hlen : (sealedIdx g).length = 8 * (g.length + 1) := sealedIdx_length g
  have hentry : pread (sealedIdx g) ((sealedIdx g).length - 8) 8 =
      some (le64 0) := by
    rw [sealedIdx, pread_eq_some _ _ _ (by
      simp only [List.length_append, le64_length]
      omega)]
    have hoff : (openIdx g ++ le64 0).length - 8 = (openIdx g).length := by
      simp [le64_length]
    rw [hoff, List.drop_left]
    rw [List.take_of_length_le (by simp [le64_length])]
  rw [resync_index_attempt]
  rw [resyncPass]
  simp only []
  rw [if_neg (by rw [hlen]; omega)]
  rw [if_pos (by rw [hlen]; omega)]
  rw [hentry]
  simp only []
  rw [if_pos (by rw [leDec_le64]; omega)]
  rw [hlen]
  have : 8 * (g.length + 1) / 8 - 1 = g.length := by omega
  rw [this]

theorem resyncAdvance_open (magic storage log : Nat) (g : List JRec)
    (hne : g ≠ []) (hmagic : magic < 2^32)
    (hg : ∀ r ∈ g, r.mess.length < 2^32) (hsz : sizeSum g < 2^64) :
    resyncAdvance magic storage log (segBytes magic g) (openIdx g)
      (sizeSum (g.take (g.length - 1))) =
      .inl (sealStep storage log (sizeSum g) (sizeSum g) (8 * g.length)
        (openIdx g)) := by
  have hn : 1 ≤ g.length := by
    rcases g with _ | ⟨r, t⟩
    · exact absurd rfl hne
    · simp
  have hk : g.length - 1 < g.length := by omega
  have hmem : g.getD (g.length - 1) default ∈ g := by
    rw [List.getD_eq_getElem _ _ hk]
    exact List.getElem_mem _
  have hmlen : (g.getD (g.length - 1) default).mess.length < 2^32 := hg _ hmem
  have hdecomp := segBytes_decomp magic g (g.length - 1) hk
  have hdrop : g.drop (g.length - 1 + 1) = [] := by
    have : g.length - 1 + 1 = g.length := by omega
    rw [this, List.drop_length]
  have hpre : (segBytes magic (g.take (g.length - 1))).length =
      sizeSum (g.take (g.length - 1)) := segBytes_length _ _
  have hrd : readHdr (segBytes magic g) (sizeSum (g.take (g.length - 1))) =
      some (magic % 2^32, (g.getD (g.length - 1) default).mess.length % 2^32) := by
    rw [← hpre]
    exact readHdr_at_rec magic _ _ _ _ hdecomp
  have hofffull : sizeSum (g.take (g.length - 1)) + 16 +
      (g.getD (g.length - 1) default).mess.length % 2^32 = sizeSum g := by
    have := sizeSum_take_add g (g.length - 1) hk
    rw [hdrop] at this
    have h0 : sizeSum ([] : List JRec) = 0 := rfl
    rw [Nat.mod_eq_of_lt hmlen]
    simp only [recSize] at this
    omega
  have hscan : scanLoop (segBytes magic g) magic (sizeSum g) =
      (.SUCCESS, [], sizeSum g) := by
    have := scanLoop_clean magic hmagic [] (segBytes magic g)
      (segBytes magic g) (by simp [segBytes_nil]) (by simp)
    simpa [segBytes_length, offsetsFrom] using this
  rw [resyncAdvance]
  rw [if_pos (by rw [openIdx_length]; omega)]
  rw [hrd]
  simp only []
  rw [hofffull]
  rw [if_neg (by rw [segBytes_length]; omega)]
  rw [resyncScanTail, hscan]
  simp only []
  rw [if_neg (fun hx => hx rfl)]
  simp [segBytes_length, openIdx_length]

theorem resyncPass_open (magic storage log : Nat) (g : List JRec)
    (hne : g ≠ []) (hmagic : magic < 2^32)
    (hg : ∀ r ∈ g, r.mess.length < 2^32) (hsz : sizeSum g < 2^64) :
    resyncPass magic storage log (segBytes magic g) (openIdx g) =
      .inl (sealStep storage log (sizeSum g) (sizeSum g) (8 * g.length)
        (openIdx g)) := by
  have hn : 1 ≤ g.length := by
    rcases g with _ | ⟨r, t⟩
    · exact absurd rfl hne
    · simp
  rw [resyncPass]
  simp only []
  rw [if_neg (by rw [openIdx_length]; omega)]
  by_cases hn2 : 2 ≤ g.length
  · rw [if_pos (by rw [openIdx_length]; omega)]
    have hvlt : sizeSum (g.take (g.length - 1)) < 2^64 :=
      lt_of_le_of_lt (sizeSum_take_le g _) hsz
    have hvpos : 16 ≤ sizeSum (g.take (g.length - 1)) :=
      sizeSum_take_pos g (g.length - 1) (by omega) (by omega)
    have hread_last : pread (openIdx g) ((openIdx g).length - 8) 8 =
        some (le64 (sizeSum (g.take (g.length - 1)))) := by
      have h8 : (openIdx g).length - 8 = 8 * (g.length - 1) := by
        rw [openIdx_length]; omega
      have := idx_entry_read (offsetsFrom 0 g) [] (g.length - 1)
        (by rw [offsetsFrom_length]; omega)
      rw [offsetsFrom_getD g 0 (g.length - 1) (by omega)] at this
      simp only [List.append_nil, Nat.zero_add] at this
      rw [h8]
      exact this
    rw [hread_last]
    simp only []
    rw [leDec_le64, Nat.mod_eq_of_lt hvlt]
    rw [if_neg (by omega)]
    have hle := sizeSum_take_le g (g.length - 1)
    rw [if_neg (by rw [segBytes_length]; omega)]
    exact resyncAdvance_open magic storage log g hne hmagic hg hsz
  · have hn1 : g.length = 1 := by omega
    rw [if_neg (by rw [openIdx_length, hn1]; omega)]
    have h0 : sizeSum (g.take (g.length - 1)) = 0 := by
      rw [hn1]
      simp [sizeSum]
    have := resyncAdvance_open magic storage log g hne hmagic hg hsz
    rw [h0] at this
    exact this

/-- `___jlog_resync_index` over a clean segment whose index is absent
or already built: success, the built index, `last = (log, count)`, and
`closed` exactly when the segment is immutable. -/
theorem resync_attempt_clean (magic storage log : Nat) (g : List JRec)
    (hmagic : magic < 2^32) (hgood : goodSeg g) (idx : List Byte)
    (hidx : idx = [] ∨ idx = builtIdx storage log g) :
    resync_index_attempt magic storage log (some (segBytes magic g)) idx =
      ⟨.SUCCESS, builtIdx storage log g, ⟨log, g.length⟩,
        decide (log < storage)⟩ := by
  obtain ⟨hg, hsz⟩ := hgood
  rcases hidx with h | h
  · subst h
    exact resync_attempt_fresh magic storage log g hmagic hg
  · subst h
    by_cases hcond : log < storage ∧ g ≠ []
    · have hbi : builtIdx storage log g = sealedIdx g := by
        rw [builtIdx, if_pos hcond]
      rw [hbi]
      rw [resync_attempt_sealed magic storage log _ g hcond.2]
      simp [hcond.1]
    · have hbi : builtIdx storage log g = openIdx g := by
        rw [builtIdx, if_neg hcond]
      rw [hbi]
      by_cases hne : g = []
      · subst hne
        rw [show openIdx ([] : List JRec) = [] from rfl]
        have H := resync_attempt_fresh magic storage log [] hmagic (by simp)
        rw [show builtIdx storage log ([] : List JRec) = [] from (by
          rw [builtIdx]; simp [openIdx, offsetsFrom])] at H
        exact H
      · have H := resync_attempt_of_pass magic storage log g (openIdx g)
          (resyncPass_open magic storage log g hne hmagic hg hsz)
        rw [hbi] at H
        exact H

theorem resync_index_success (magic storage log : Nat)
    (data : Option (List Byte)) (idx : List Byte)
    (h : (resync_index_attempt magic storage log data idx).err = .SUCCESS) :
    resync_index magic storage log data idx =
      ⟨data, (resync_index_attempt magic storage log data idx).idx,
       resync_index_attempt magic storage log data idx, 1, 0⟩ := by
  rw [resync_index, resyncLoopGo]
  rw [if_pos (Or.inl h)]

/-!
## Round-trip groundwork: directory state accessors
-/

theorem getD_set_eq {α : Type} (dflt : α) (l : List α) (i j : Nat) (a : α) :
    (l.set i a).getD j dflt =
      if i = j ∧ i < l.length then a else l.getD j dflt := by
  rw [List.getD_eq_getElem?_getD, List.getElem?_set]
  split
  · rename_i h
    subst h
    split
    · rename_i h2
      simp [h2]
    · rename_i h2
      rw [List.getD_eq_getElem?_getD, List.getElem?_eq_none (by omega)]
      simp [h2]
  · rename_i h
    rw [List.getD_eq_getElem?_getD]
    simp [h]

theorem getD_append_left {α : Type} (dflt : α) (l1 l2 : List α) (j : Nat)
    (h : j < l1.length) : (l1 ++ l2).getD j dflt = l1.getD j dflt := by
  rw [List.getD_eq_getElem?_getD, List.getD_eq_getElem?_getD,
    List.getElem?_append]
  simp [h]

theorem getD_append_right {α : Type} (dflt : α) (l1 l2 : List α) (j : Nat)
    (h : l1.length ≤ j) :
    (l1 ++ l2).getD j dflt = l2.getD (j - l1.length) dflt := by
  rw [List.getD_eq_getElem?_getD, List.getD_eq_getElem?_getD,
    List.getElem?_append]
  rw [if_neg (by omega)]

theorem getD_of_length_le {α : Type} (dflt : α) (l : List α) (j : Nat)
    (h : l.length ≤ j) : l.getD j dflt = dflt := by
  rw [List.getD_eq_getElem?_getD, List.getElem?_eq_none h]
  rfl

theorem listSetPad_getD {α : Type} (dflt : α) (l : List α) (i : Nat) (a : α)
    (j : Nat) :
    (listSetPad dflt l i a).getD j dflt =
      if j = i then a else l.getD j dflt := by
  rw [listSetPad]
  by_cases hi : i < l.length
  · rw [if_pos hi, getD_set_eq]
    by_cases hj : j = i
    · subst hj
      rw [if_pos ⟨rfl, hi⟩, if_pos rfl]
    · rw [if_neg (fun hc => hj hc.1.symm), if_neg hj]
  · rw [if_neg hi]
    by_cases hj1 : j < l.length
    · rw [getD_append_left _ _ _ _ (by simp [List.length_append]; omega)]
      rw [getD_append_left _ _ _ _ hj1, if_neg (by omega)]
    · by_cases hj2 : j < i
      · rw [getD_append_left _ _ _ _ (by simp [List.length_append]; omega)]
        rw [getD_append_right _ _ _ _ (by omega)]
        have : (List.replicate (i - l.length) dflt).getD (j - l.length) dflt
            = dflt := by
          rcases Nat.lt_or_ge (j - l.length) (i - l.length) with h | h
          · rw [List.getD_eq_getElem?_getD, List.getElem?_replicate]
            simp [h]
          · exact getD_of_length_le _ _ _ (by simp; omega)
        rw [this, if_neg (by omega), getD_of_length_le _ _ _ (by omega)]
      · by_cases hj3 : j = i
        · subst hj3
          rw [getD_append_right _ _ _ _ (by simp [List.length_append]; omega)]
          have : j - (l ++ List.replicate (j - l.length) dflt).length = 0 := by
            simp [List.length_append]
            omega
          rw [this, if_pos rfl]
          rfl
        · rw [getD_of_length_le _ _ _ (by
            simp [List.length_append]
            omega)]
          rw [if_neg hj3, getD_of_length_le _ _ _ (by omega)]

theorem segGet_setSeg (st : JDirSt) (log : Nat) (v : Option (List Byte))
    (L : Nat) :
    segGet (setSeg st log v) L = if L = log then v else segGet st L := by
  rw [segGet, setSeg]
  exact listSetPad_getD none st.segs log v L

theorem idxGet_setIdx (st : JDirSt) (log : Nat) (v : List Byte) (L : Nat) :
    idxGet (setIdx st log v) L = if L = log then v else idxGet st L := by
  rw [idxGet, setIdx]
  exact listSetPad_getD [] st.idxs log v L

theorem segGet_setIdx (st : JDirSt) (log : Nat) (v : List Byte) (L : Nat) :
    segGet (setIdx st log v) L = segGet st L := rfl

theorem idxGet_setSeg (st : JDirSt) (log : Nat) (v : Option (List Byte))
    (L : Nat) : idxGet (setSeg st log v) L = idxGet st L := rfl

theorem setSeg_storage (st : JDirSt) (log : Nat) (v : Option (List Byte)) :
    (setSeg st log v).storage = st.storage := rfl

theorem setIdx_storage (st : JDirSt) (log : Nat) (v : List Byte) :
    (setIdx st log v).storage = st.storage := rfl

theorem setSeg_cp (st : JDirSt) (log : Nat) (v : Option (List Byte)) :
    (setSeg st log v).cp = st.cp := rfl

theorem setIdx_cp (st : JDirSt) (log : Nat) (v : List Byte) :
    (setIdx st log v).cp = st.cp := rfl

theorem gs_getD_mem (gs : List (List JRec)) (L : Nat) (hL : L < gs.length) :
    gs.getD L [] ∈ gs := by
  rw [List.getD_eq_getElem gs [] hL]
  exact List.getElem_mem _

/-- `__jlog_resync_index` at the directory level over a clean state. -/
theorem resync_dir_clean (magic : Nat) (gs : List (List JRec)) (lo : Nat)
    (st : JDirSt) (hok : DirOk magic gs lo st) (L : Nat) (hlo : lo ≤ L)
    (hL : L < gs.length) :
    resync_dir magic L st =
      (setIdx (setSeg st L (some (segBytes magic (gs.getD L []))))
         L (builtIdx st.storage L (gs.getD L [])),
       ⟨.SUCCESS, builtIdx st.storage L (gs.getD L []),
        ⟨L, (gs.getD L []).length⟩, decide (L < st.storage)⟩) := by
  obtain ⟨hmagic, hstor, hsegs, hidxs, hne, hgood⟩ := hok
  have hseg := hsegs L hlo hL
  have hidx := hidxs L hlo hL
  have hatt := resync_attempt_clean magic st.storage L (gs.getD L []) hmagic
    (hgood _ (gs_getD_mem gs L hL)) (idxGet st L) hidx
  rw [resync_dir, hseg]
  rw [resync_index_success _ _ _ _ _ (by rw [hatt])]
  rw [hatt]

/-!
## Round-trip groundwork: reading one record of a clean segment
-/

theorem read_message_once_clean (magic L : Nat) (g : List JRec)
    (idx : List Byte) (hidx : idx = openIdx g ∨ idx = sealedIdx g)
    (hmagic : magic < 2^32) (hgood : goodSeg g) (j : Nat) (hj1 : 1 ≤ j)
    (hj2 : j ≤ g.length) :
    jlog_ctx_read_message_once .READ (some (segBytes magic g)) idx ⟨L, j⟩ =
      .ok ((g.getD (j - 1) default).mess) := by
  obtain ⟨hg, hsz⟩ := hgood
  have hk : j - 1 < g.length := by omega
  have hmem : g.getD (j - 1) default ∈ g := by
    rw [List.getD_eq_getElem _ _ hk]
    exact List.getElem_mem _
  have hmlen : (g.getD (j - 1) default).mess.length < 2^32 := hg _ hmem
  obtain ⟨suffix, hsfx, hslen⟩ :
      ∃ s, idx = ((offsetsFrom 0 g).map le64).flatten ++ s ∧
        (s.length = 0 ∨ s.length = 8) := by
    rcases hidx with h | h
    · exact ⟨[], by rw [h, openIdx, List.append_nil], Or.inl rfl⟩
    · exact ⟨le64 0, by rw [h, sealedIdx, openIdx], Or.inr (le64_length 0)⟩
  have hidxlen : idx.length = 8 * g.length + suffix.length := by
    rw [hsfx, List.length_append, le64_flatten_length, offsetsFrom_length]
  have hoeq := sizeSum_take_add g (j - 1) hk
  have hole : sizeSum (g.take (j - 1)) + recSize (g.getD (j - 1) default) ≤
      sizeSum g := by omega
  have hrecsz : recSize (g.getD (j - 1) default) =
      16 + (g.getD (j - 1) default).mess.length := rfl
  have hentry : pread idx ((j - 1) * 8) 8 =
      some (le64 (sizeSum (g.take (j - 1)))) := by
    rw [hsfx, Nat.mul_comm]
    have := idx_entry_read (offsetsFrom 0 g) suffix (j - 1)
      (by rw [offsetsFrom_length]; omega)
    rw [offsetsFrom_getD g 0 (j - 1) hk] at this
    simpa using this
  have hsz16 : 16 ≤ sizeSum g := by
    have := sizeSum_take_pos g g.length (by omega) (le_refl _)
    simpa [List.take_length] using this
  have hmod : ((segBytes magic g).length + 2^64 - 16) % 2^64 =
      sizeSum g - 16 := by
    rw [segBytes_length]
    have h1 : sizeSum g + 2^64 - 16 = (sizeSum g - 16) + 2^64 := by omega
    rw [h1, Nat.add_mod_right]
    exact Nat.mod_eq_of_lt (by omega)
  have hdecomp := segBytes_decomp magic g (j - 1) hk
  have hpre : (segBytes magic (g.take (j - 1))).length =
      sizeSum (g.take (j - 1)) := segBytes_length _ _
  have hrd : readHdr (segBytes magic g) (sizeSum (g.take (j - 1))) =
      some (magic % 2^32, (g.getD (j - 1) default).mess.length % 2^32) := by
    rw [← hpre]
    exact readHdr_at_rec magic _ _ _ _ hdecomp
  have hpay : ((segBytes magic g).drop (sizeSum (g.take (j - 1)) + 16)).take
      ((g.getD (j - 1) default).mess.length) =
      (g.getD (j - 1) default).mess := by
    rw [← hpre]
    exact payload_at_rec magic _ _ _ _ hdecomp
  have hodec : leDec (le64 (sizeSum (g.take (j - 1)))) =
      sizeSum (g.take (j - 1)) := by
    rw [leDec_le64]
    exact Nat.mod_eq_of_lt (by omega)
  rw [jlog_ctx_read_message_once]
  rw [if_neg (by simp)]
  rw [if_neg (show ¬ (JId.mk L j).marker < 1 by
    show ¬ j < 1
    omega)]
  simp only []
  rw [if_neg (show ¬ idx.length % 8 ≠ 0 by omega)]
  rw [if_neg (show ¬ (JId.mk L j).marker * 8 > idx.length by
    show ¬ j * 8 > idx.length
    omega)]
  rw [show (JId.mk L j).marker - 1 = j - 1 from rfl, hentry]
  simp only []
  rw [hodec]
  rw [if_neg (by
    rintro ⟨h1, h2⟩
    have h2' : j ≠ 1 := h2
    have hj2' : 2 ≤ j := by omega
    have := sizeSum_take_pos g (j - 1) (by omega) (by omega)
    omega)]
  rw [hmod]
  rw [if_neg (by omega)]
  rw [hrd]
  simp only []
  rw [Nat.mod_eq_of_lt hmlen]
  rw [if_neg (by
    rw [segBytes_length]
    have : (sizeSum (g.take (j - 1)) + 16 +
        (g.getD (j - 1) default).mess.length) % 2^64 =
        sizeSum (g.take (j - 1)) + 16 +
        (g.getD (j - 1) default).mess.length :=
      Nat.mod_eq_of_lt (by omega)
    rw [this]
    omega)]
  rw [hpay]

theorem read_messages_range_clean (magic L : Nat) (st : JDirSt)
    (g : List JRec)
    (hseg : segGet st L = some (segBytes magic g))
    (hidx : idxGet st L = openIdx g ∨ idxGet st L = sealedIdx g)
    (hmagic : magic < 2^32) (hgood : goodSeg g) :
    ∀ (cnt j upto : Nat), upto + 1 - j = cnt → 1 ≤ j → upto ≤ g.length →
      read_messages_range magic st L j upto =
        (st, some (((g.drop (j - 1)).take (upto + 1 - j)).map (·.mess))) := by
  intro cnt
  induction cnt with
  | zero =>
    intro j upto hcnt hj1 hupto
    rw [read_messages_range, dif_pos (by omega)]
    have : upto + 1 - j = 0 := hcnt
    rw [this]
    simp
  | succ n ih =>
    intro j upto hcnt hj1 hupto
    have hk : j - 1 < g.length := by omega
    have hmsg : jlog_ctx_read_message_dir magic st ⟨L, j⟩ =
        (st, .ok ((g.getD (j - 1) default).mess)) := by
      rw [jlog_ctx_read_message_dir]
      rw [show (JId.mk L j).log = L from rfl, hseg]
      rw [read_message_once_clean magic L g _ hidx hmagic hgood j hj1 (by omega)]
    rw [read_messages_range, dif_neg (by omega)]
    rw [hmsg]
    simp only []
    rw [ih (j + 1) upto (by omega) (by omega) hupto]
    simp only []
    have hdropj : g.drop (j - 1) = g.getD (j - 1) default :: g.drop j := by
      rw [List.getD_eq_getElem _ _ hk]
      have h := List.drop_eq_getElem_cons hk (l := g)
      have hj : j - 1 + 1 = j := by omega
      rw [hj] at h
      exact h
    have hsucc : upto + 1 - j = (upto + 1 - (j + 1)) + 1 := by omega
    rw [hdropj, hsucc, List.take_succ_cons]
    simp

/-- Resyncing segment `L` preserves the directory invariant. -/
theorem DirOk_update (magic : Nat) (gs : List (List JRec)) (lo : Nat)
    (st : JDirSt) (hok : DirOk magic gs lo st) (L : Nat) (hlo : lo ≤ L)
    (hL : L < gs.length) :
    DirOk magic gs lo (setIdx (setSeg st L (some (segBytes magic (gs.getD L []))))
      L (builtIdx st.storage L (gs.getD L []))) := by
  obtain ⟨h1, h2, h3, h4, h5, h6⟩ := hok
  refine ⟨h1, h2, ?_, ?_, h5, h6⟩
  · intro L' hlo' hL'
    rw [segGet_setIdx, segGet_setSeg]
    by_cases hLL : L' = L
    · subst hLL
      rw [if_pos rfl]
    · rw [if_neg hLL]
      exact h3 L' hlo' hL'
  · intro L' hlo' hL'
    rw [idxGet_setIdx]
    by_cases hLL : L' = L
    · subst hLL
      rw [if_pos rfl]
      exact Or.inr rfl
    · rw [if_neg hLL]
      exact h4 L' hlo' hL'

theorem builtIdx_length_ne_zero (storage log : Nat) (g : List JRec)
    (hne : g ≠ []) : (builtIdx storage log g).length ≠ 0 := by
  have hn : 1 ≤ g.length := by
    rcases g with _ | ⟨r, t⟩
    · exact absurd rfl hne
    · simp
  rw [builtIdx]
  split
  · rw [sealedIdx_length]
    omega
  · rw [openIdx_length]
    omega

theorem resyncUpd_storage (magic : Nat) (gs : List (List JRec)) (st : JDirSt)
    (L : Nat) : (resyncUpd magic gs st L).storage = st.storage := rfl

theorem resyncUpd_cp (magic : Nat) (gs : List (List JRec)) (st : JDirSt)
    (L : Nat) : (resyncUpd magic gs st L).cp = st.cp := rfl

theorem segGet_resyncUpd (magic : Nat) (gs : List (List JRec)) (st : JDirSt)
    (L L' : Nat) :
    segGet (resyncUpd magic gs st L) L' =
      if L' = L then some (segBytes magic (gs.getD L [])) else segGet st L' := by
  rw [resyncUpd, segGet_setIdx, segGet_setSeg]

theorem idxGet_resyncUpd (magic : Nat) (gs : List (List JRec)) (st : JDirSt)
    (L L' : Nat) :
    idxGet (resyncUpd magic gs st L) L' =
      if L' = L then builtIdx st.storage L (gs.getD L []) else idxGet st L' := by
  rw [resyncUpd, idxGet_setIdx, idxGet_setSeg]

theorem DirOk_resyncUpd (magic : Nat) (gs : List (List JRec)) (lo : Nat)
    (st : JDirSt) (hok : DirOk magic gs lo st) (L : Nat) (hlo : lo ≤ L)
    (hL : L < gs.length) : DirOk magic gs lo (resyncUpd magic gs st L) :=
  DirOk_update magic gs lo st hok L hlo hL

theorem resync_dir_clean_upd (magic : Nat) (gs : List (List JRec)) (lo : Nat)
    (st : JDirSt) (hok : DirOk magic gs lo st) (L : Nat) (hlo : lo ≤ L)
    (hL : L < gs.length) :
    resync_dir magic L st =
      (resyncUpd magic gs st L,
       ⟨.SUCCESS, builtIdx st.storage L (gs.getD L []),
        ⟨L, (gs.getD L []).length⟩, decide (L < st.storage)⟩) :=
  resync_dir_clean magic gs lo st hok L hlo hL

theorem sizeSum_of_ne_nil (g : List JRec) (h : g ≠ []) : 16 ≤ sizeSum g := by
  have hn : 1 ≤ g.length := by
    rcases g with _ | ⟨r, t⟩
    · exact absurd rfl h
    · simp
  have := sizeSum_take_pos g g.length hn (le_refl _)
  simpa [List.take_length] using this

/-- `__jlog_find_first_log_after` when the checkpoint sits strictly
inside its segment: one clean resync, no advance. -/
theorem ffla_case_lt (magic : Nat) (gs : List (List JRec)) (lo : Nat)
    (st : JDirSt) (hok : DirOk magic gs lo st) (l m fuel : Nat)
    (hlo : lo ≤ l) (hl : l < gs.length)
    (hm : m < (gs.getD l []).length) :
    find_first_log_after magic (fuel + 1) ⟨l, m⟩ st =
      (resyncUpd magic gs st l,
       .ok (⟨l, m⟩, ⟨l, (gs.getD l []).length⟩)) := by
  rw [find_first_log_after]
  simp only []
  rw [resync_dir_clean_upd magic gs lo st hok l hlo hl]
  simp only []
  rw [if_neg (fun hc => hc rfl)]
  rw [if_neg (show ¬ (True ∧ (gs.getD l []).length < m) from
    fun hc => absurd hc.2 (by omega))]
  rw [if_neg (show ¬ (JId.mk l m = JId.mk l (gs.getD l []).length ∧
      decide (l < st.storage) = true) from fun hc => by
    have h1 := hc.1
    rw [JId.mk.injEq] at h1
    omega)]

theorem sizeSum_nil : sizeSum [] = 0 := rfl

/-- `__jlog_find_first_log_after` at a fully-consumed segment with no
non-empty successor: it answers `start = finish`. -/
theorem ffla_case_stop (magic : Nat) (gs : List (List JRec)) (lo : Nat)
    (st : JDirSt) (hok : DirOk magic gs lo st) (l fuel : Nat)
    (hlo : lo ≤ l) (hl : l < gs.length)
    (hstop : ¬ (l + 1 < gs.length ∧ gs.getD (l + 1) [] ≠ [])) :
    find_first_log_after magic (fuel + 1) ⟨l, (gs.getD l []).length⟩ st =
      (resyncUpd magic gs st l,
       .ok (⟨l, (gs.getD l []).length⟩, ⟨l, (gs.getD l []).length⟩)) := by
  have hstor : st.storage + 1 = gs.length := hok.2.1
  rw [find_first_log_after]
  simp only []
  rw [resync_dir_clean_upd magic gs lo st hok l hlo hl]
  simp only []
  rw [if_neg (fun hc => hc rfl)]
  rw [if_neg (show ¬ (True ∧ (gs.getD l []).length < (gs.getD l []).length)
    from fun hc => absurd hc.2 (by omega))]
  by_cases hl1 : l + 1 < gs.length
  · have hnil : gs.getD (l + 1) [] = [] := by
      by_contra hne
      exact hstop ⟨hl1, hne⟩
    rw [if_pos (show JId.mk l (gs.getD l []).length =
        JId.mk l (gs.getD l []).length ∧ decide (l < st.storage) = true from
      ⟨rfl, by rw [decide_eq_true_iff]; omega⟩)]
    have hstat : statSegLen (resyncUpd magic gs st l) (l + 1) =
        some (sizeSum (gs.getD (l + 1) [])) := by
      rw [statSegLen, segGet_resyncUpd, if_neg (by omega),
        hok.2.2.1 (l + 1) (by omega) hl1]
      simp [segBytes_length]
    rw [hstat]
    simp only []
    rw [hnil, sizeSum_nil]
    rw [if_pos (Or.inr rfl)]
  · rw [if_neg (show ¬ (JId.mk l (gs.getD l []).length =
        JId.mk l (gs.getD l []).length ∧ decide (l < st.storage) = true)
      from fun hc => by
        have h2 := hc.2
        rw [decide_eq_true_iff] at h2
        omega)]

/-- `__jlog_find_first_log_after` at a fully-consumed segment with a
non-empty successor: it hops to `(l+1, 0)` after resyncing twice. -/
theorem ffla_case_adv (magic : Nat) (gs : List (List JRec)) (lo : Nat)
    (st : JDirSt) (hok : DirOk magic gs lo st) (l fuel : Nat)
    (hlo : lo ≤ l) (hl1 : l + 1 < gs.length)
    (hne : gs.getD (l + 1) [] ≠ []) :
    find_first_log_after magic (fuel + 2) ⟨l, (gs.getD l []).length⟩ st =
      (resyncUpd magic gs
         (resyncUpd magic gs (resyncUpd magic gs st l) (l + 1)) (l + 1),
       .ok (⟨l + 1, 0⟩, ⟨l + 1, (gs.getD (l + 1) []).length⟩)) := by
  have hstor : st.storage + 1 = gs.length := hok.2.1
  have hl : l < gs.length := by omega
  have h2 : fuel + 2 = (fuel + 1) + 1 := rfl
  rw [h2, find_first_log_after]
  simp only []
  rw [resync_dir_clean_upd magic gs lo st hok l hlo hl]
  simp only []
  rw [if_neg (fun hc => hc rfl)]
  rw [if_neg (show ¬ (True ∧ (gs.getD l []).length < (gs.getD l []).length)
    from fun hc => absurd hc.2 (by omega))]
  rw [if_pos (show JId.mk l (gs.getD l []).length =
      JId.mk l (gs.getD l []).length ∧ decide (l < st.storage) = true from
    ⟨rfl, by rw [decide_eq_true_iff]; omega⟩)]
  have hok1 : DirOk magic gs lo (resyncUpd magic gs st l) :=
    DirOk_resyncUpd magic gs lo st hok l hlo hl
  have hstat : statSegLen (resyncUpd magic gs st l) (l + 1) =
      some (sizeSum (gs.getD (l + 1) [])) := by
    rw [statSegLen, segGet_resyncUpd, if_neg (by omega),
      hok.2.2.1 (l + 1) (by omega) hl1]
    simp [segBytes_length]
  rw [hstat]
  simp only []
  rw [resyncUpd_storage]
  rw [if_neg (show ¬ (l ≥ st.storage ∨ sizeSum (gs.getD (l + 1) []) = 0)
    from by
      rintro (hc | hc)
      · omega
      · have := sizeSum_of_ne_nil _ hne
        omega)]
  rw [resync_dir_clean_upd magic gs lo _ hok1 (l + 1) (by omega) hl1]
  simp only []
  rw [if_neg (fun hc => hc rfl)]
  rw [idxGet_resyncUpd, if_pos rfl]
  rw [if_neg (show ¬ (builtIdx (resyncUpd magic gs st l).storage (l + 1)
      (gs.getD (l + 1) [])).length = 0 from
    builtIdx_length_ne_zero _ _ _ hne)]
  exact ffla_case_lt magic gs lo _
    (DirOk_resyncUpd magic gs lo _ hok1 (l + 1) (by omega) hl1)
    (l + 1) 0 fuel (by omega) hl1 (List.length_pos.mpr hne)

theorem segGet_setCp (st : JDirSt) (c : JId) (L : Nat) :
    segGet { st with cp := c } L = segGet st L := rfl

theorem idxGet_setCp (st : JDirSt) (c : JId) (L : Nat) :
    idxGet { st with cp := c } L = idxGet st L := rfl

/-- The sole subscriber checkpoints from segment `l` to `l + 1`: the
sweep unlinks exactly segment `l`. -/
theorem set_checkpoint_dir_next (st : JDirSt) (l : Nat)
    (hcp : st.cp.log = l) :
    set_checkpoint_dir st ⟨l + 1, 0⟩ =
      setIdx (setSeg { st with cp := (⟨l + 1, 0⟩ : JId) } l none) l [] := by
  rw [set_checkpoint_dir]
  simp only []
  rw [hcp]
  rw [sweep_dir]
  rw [dif_pos (by omega : l < l + 1)]
  have hp : jlog_pending_readers [(⟨l + 1, 0⟩ : JId)] l = 0 := by
    simp [jlog_pending_readers, List.filter]
  simp only []
  rw [if_pos hp]
  rw [unlink_datafile_dir]
  rw [sweep_dir]
  rw [dif_neg (by omega : ¬ l + 1 < l + 1)]

/-- Unlinking segment `l` (and moving the checkpoint) preserves the
directory invariant from `l + 1` on. -/
theorem DirOk_unlink (magic : Nat) (gs : List (List JRec)) (lo : Nat)
    (st : JDirSt) (hok : DirOk magic gs lo st) (l : Nat)
    (hlo : lo ≤ l + 1) (c : JId) :
    DirOk magic gs (l + 1)
      (setIdx (setSeg { st with cp := c } l none) l []) := by
  obtain ⟨h1, h2, h3, h4, h5, h6⟩ := hok
  refine ⟨h1, h2, ?_, ?_, h5, h6⟩
  · intro L hlo' hL
    rw [segGet_setIdx, segGet_setSeg, if_neg (by omega), segGet_setCp]
    exact h3 L (by omega) hL
  · intro L hlo' hL
    rw [idxGet_setIdx, if_neg (by omega), idxGet_setSeg, idxGet_setCp]
    exact h4 L (by omega) hL

/-- `jlog_ctx_read_interval` with the checkpoint strictly inside its
segment: the window covers the rest of the segment. -/
theorem read_interval_case_lt (magic : Nat) (gs : List (List JRec))
    (lo : Nat) (st : JDirSt) (hok : DirOk magic gs lo st) (l m : Nat)
    (hcp : st.cp = ⟨l, m⟩) (hlo : lo ≤ l) (hl : l < gs.length)
    (hm : m < (gs.getD l []).length) :
    jlog_ctx_read_interval magic st =
      (resyncUpd magic gs st l,
       .ok ((((gs.getD l []).length : Int) - (m : Int)),
            ⟨l, m + 1⟩, ⟨l, (gs.getD l []).length⟩)) := by
  rw [jlog_ctx_read_interval]
  simp only []
  rw [hcp]
  simp only []
  rw [show st.storage + 2 = st.storage + 1 + 1 from rfl]
  rw [ffla_case_lt magic gs lo st hok l m (st.storage + 1) hlo hl hm]
  simp only []
  rw [if_neg (show ¬ l ≠ l from fun hc => hc rfl)]
  rw [if_neg (show ¬ l ≠ l from fun hc => hc rfl)]
  rw [if_pos (show (gs.getD l []).length > m from hm)]
  rw [if_neg (show ¬ (((gs.getD l []).length : Int) - (m : Int)) < 0 from
    by omega)]

/-- `jlog_ctx_read_interval` at a consumed segment with no non-empty
successor: the window is empty. -/
theorem read_interval_case_stop (magic : Nat) (gs : List (List JRec))
    (lo : Nat) (st : JDirSt) (hok : DirOk magic gs lo st) (l : Nat)
    (hcp : st.cp = ⟨l, (gs.getD l []).length⟩) (hlo : lo ≤ l)
    (hl : l < gs.length)
    (hstop : ¬ (l + 1 < gs.length ∧ gs.getD (l + 1) [] ≠ [])) :
    jlog_ctx_read_interval magic st =
      (resyncUpd magic gs st l,
       .ok (0, ⟨l, (gs.getD l []).length⟩,
            ⟨l, (gs.getD l []).length⟩)) := by
  rw [jlog_ctx_read_interval]
  simp only []
  rw [hcp]
  simp only []
  rw [show st.storage + 2 = st.storage + 1 + 1 from rfl]
  rw [ffla_case_stop magic gs lo st hok l (st.storage + 1) hlo hl hstop]
  simp only []
  rw [if_neg (show ¬ l ≠ l from fun hc => hc rfl)]
  rw [if_neg (show ¬ l ≠ l from fun hc => hc rfl)]
  rw [if_neg (show ¬ (gs.getD l []).length > (gs.getD l []).length from
    by omega)]
  rw [if_neg (show ¬ (((gs.getD l []).length : Int) -
      ((gs.getD l []).length : Int)) < 0 from by omega)]
  simp

/-- `jlog_ctx_read_interval` at a consumed segment with a non-empty
successor: the checkpoint hops to `(l+1, 0)`, segment `l` is swept
away, and the window covers all of segment `l + 1`. -/
theorem read_interval_case_adv (magic : Nat) (gs : List (List JRec))
    (lo : Nat) (st : JDirSt) (hok : DirOk magic gs lo st) (l : Nat)
    (hcp : st.cp = ⟨l, (gs.getD l []).length⟩) (hlo : lo ≤ l)
    (hl1 : l + 1 < gs.length) (hne : gs.getD (l + 1) [] ≠ []) :
    ∃ st', jlog_ctx_read_interval magic st =
        (st', .ok ((((gs.getD (l + 1) []).length : Int)),
             ⟨l + 1, 1⟩, ⟨l + 1, (gs.getD (l + 1) []).length⟩))
      ∧ DirOk magic gs (l + 1) st'
      ∧ st'.cp = ⟨l + 1, 0⟩
      ∧ st'.storage = st.storage
      ∧ idxGet st' (l + 1) =
          builtIdx st.storage (l + 1) (gs.getD (l + 1) []) := by
  have hl : l < gs.length := by omega
  rw [jlog_ctx_read_interval]
  simp only []
  rw [hcp]
  simp only []
  rw [ffla_case_adv magic gs lo st hok l st.storage hlo hl1 hne]
  simp only []
  rw [if_pos (show l + 1 ≠ l by omega)]
  rw [if_pos (show l + 1 ≠ l by omega)]
  have hok1 : DirOk magic gs lo (resyncUpd magic gs st l) :=
    DirOk_resyncUpd magic gs lo st hok l hlo hl
  have hok2 : DirOk magic gs lo
      (resyncUpd magic gs (resyncUpd magic gs st l) (l + 1)) :=
    DirOk_resyncUpd magic gs lo _ hok1 (l + 1) (by omega) hl1
  have hok3 : DirOk magic gs lo
      (resyncUpd magic gs
        (resyncUpd magic gs (resyncUpd magic gs st l) (l + 1)) (l + 1)) :=
    DirOk_resyncUpd magic gs lo _ hok2 (l + 1) (by omega) hl1
  rw [set_checkpoint_dir_next _ l (by
    rw [show (resyncUpd magic gs
        (resyncUpd magic gs (resyncUpd magic gs st l) (l + 1)) (l + 1)).cp =
      st.cp from rfl, hcp])]
  rw [if_pos (show (gs.getD (l + 1) []).length > 0 from
    List.length_pos.mpr hne)]
  rw [if_neg (show ¬ (((gs.getD (l + 1) []).length : Int) -
      ((0 : Nat) : Int)) < 0 from by omega)]
  refine ⟨setIdx (setSeg { (resyncUpd magic gs
      (resyncUpd magic gs (resyncUpd magic gs st l) (l + 1)) (l + 1)) with
      cp := (⟨l + 1, 0⟩ : JId) } l none) l [], by simp, ?_, rfl, rfl, ?_⟩
  · exact DirOk_unlink magic gs lo _ hok3 l (by omega) _
  · rw [idxGet_setIdx, if_neg (by omega), idxGet_setSeg, idxGet_setCp]
    rw [idxGet_resyncUpd, if_pos rfl, resyncUpd_storage, resyncUpd_storage]

theorem tailPayloads_stop (gs : List (List JRec)) (l : Nat)
    (hl : l < gs.length)
    (hstop : ¬ (l + 1 < gs.length ∧ gs.getD (l + 1) [] ≠ []))
    (h5 : ∀ i, i + 1 < gs.length → gs.getD i [] ≠ []) :
    tailPayloads gs l (gs.getD l []).length = [] := by
  rw [tailPayloads]
  have hfl : (gs.drop (l + 1)).flatten = [] := by
    rcases Nat.lt_or_ge (l + 1) gs.length with hlt | hge
    · have hnil : gs.getD (l + 1) [] = [] := by
        by_contra hne
        exact hstop ⟨hlt, hne⟩
      have hfin : gs.length ≤ l + 2 := by
        by_contra hbig
        exact h5 (l + 1) (by omega) hnil
      have hdrop : gs.drop (l + 1) = [gs.getD (l + 1) []] := by
        rw [List.getD_eq_getElem _ _ hlt]
        rw [List.drop_eq_getElem_cons hlt]
        congr 1
        exact List.drop_eq_nil_of_le (by omega)
      rw [hdrop, hnil]
      simp
    · rw [List.drop_eq_nil_of_le hge]
      simp
  rw [List.drop_length, hfl]
  simp

theorem tailPayloads_adv (gs : List (List JRec)) (l : Nat)
    (hl1 : l + 1 < gs.length) :
    tailPayloads gs l (gs.getD l []).length =
      (gs.getD (l + 1) []).map (·.mess) ++
        tailPayloads gs (l + 1) (gs.getD (l + 1) []).length := by
  rw [tailPayloads, tailPayloads, List.drop_length, List.drop_length]
  have hdec : gs.drop (l + 1) = gs.getD (l + 1) [] :: gs.drop (l + 1 + 1) := by
    rw [List.getD_eq_getElem _ _ hl1]
    exact List.drop_eq_getElem_cons hl1
  rw [hdec]
  simp

theorem tailPayloads_lt (gs : List (List JRec)) (l m : Nat) :
    tailPayloads gs l m =
      ((gs.getD l []).drop m).map (·.mess) ++
        tailPayloads gs l (gs.getD l []).length := by
  rw [tailPayloads, tailPayloads, List.drop_length]
  simp

/-- A checkpoint write inside the current segment sweeps nothing. -/
theorem set_checkpoint_dir_same (st : JDirSt) (c : JId)
    (h : st.cp.log = c.log) :
    set_checkpoint_dir st c = { st with cp := c } := by
  rw [set_checkpoint_dir]
  rw [h]
  rw [sweep_dir]
  rw [dif_neg (lt_irrefl _)]

theorem DirOk_setCp (magic : Nat) (gs : List (List JRec)) (lo : Nat)
    (st : JDirSt) (hok : DirOk magic gs lo st) (c : JId) :
    DirOk magic gs lo { st with cp := c } := by
  obtain ⟨h1, h2, h3, h4, h5, h6⟩ := hok
  exact ⟨h1, h2, h3, h4, h5, h6⟩

/-- The consumption loop from a fully-consumed checkpoint: every later
segment is read in order. -/
theorem drain_consumed (magic : Nat) (gs : List (List JRec)) :
    ∀ (k l : Nat) (st : JDirSt), gs.length - l = k + 1 →
      DirOk magic gs l st →
      st.cp = ⟨l, (gs.getD l []).length⟩ → l < gs.length →
      ∀ fuel, k + 1 ≤ fuel →
      subscriber_drain magic fuel st =
        some (tailPayloads gs l (gs.getD l []).length) := by
  intro k
  induction k with
  | zero =>
    intro l st hk hok hcp hl fuel hfuel
    obtain ⟨f, rfl⟩ : ∃ f, fuel = f + 1 := ⟨fuel - 1, by omega⟩
    rw [subscriber_drain]
    have hstop : ¬ (l + 1 < gs.length ∧ gs.getD (l + 1) [] ≠ []) := by
      rintro ⟨h1, -⟩
      omega
    rw [read_interval_case_stop magic gs l st hok l hcp (le_refl _) hl hstop]
    simp only []
    rw [if_pos (le_refl (0 : Int))]
    rw [tailPayloads_stop gs l hl hstop hok.2.2.2.2.1]
  | succ k ih =>
    intro l st hk hok hcp hl fuel hfuel
    obtain ⟨f, rfl⟩ : ∃ f, fuel = f + 1 := ⟨fuel - 1, by omega⟩
    rw [subscriber_drain]
    by_cases hD : l + 1 < gs.length ∧ gs.getD (l + 1) [] ≠ []
    · obtain ⟨hl1, hne⟩ := hD
      obtain ⟨st', heq, hok', hcp', hstor', hidx'⟩ :=
        read_interval_case_adv magic gs l st hok l hcp (le_refl _) hl1 hne
      rw [heq]
      simp only []
      have hnpos : 0 < (gs.getD (l + 1) []).length := List.length_pos.mpr hne
      rw [if_neg (show ¬ (((gs.getD (l + 1) []).length : Int) ≤ 0) from
        by omega)]
      have hseg' : segGet st' (l + 1) =
          some (segBytes magic (gs.getD (l + 1) [])) :=
        hok'.2.2.1 (l + 1) (le_refl _) hl1
      have hidxd : idxGet st' (l + 1) = openIdx (gs.getD (l + 1) []) ∨
          idxGet st' (l + 1) = sealedIdx (gs.getD (l + 1) []) := by
        rw [hidx', builtIdx]
        split
        · exact Or.inr rfl
        · exact Or.inl rfl
      have hgood' : goodSeg (gs.getD (l + 1) []) :=
        hok.2.2.2.2.2 _ (gs_getD_mem gs (l + 1) hl1)
      rw [read_messages_range_clean magic (l + 1) st' (gs.getD (l + 1) [])
        hseg' hidxd hok.1 hgood' (gs.getD (l + 1) []).length 1
        (gs.getD (l + 1) []).length (by omega) (by omega) (le_refl _)]
      simp only []
      rw [jlog_ctx_read_checkpoint]
      rw [set_checkpoint_dir_same st' ⟨l + 1, (gs.getD (l + 1) []).length⟩
        (by rw [hcp'])]
      rw [ih (l + 1) _ (by omega) (DirOk_setCp magic gs (l + 1) st' hok' _)
        rfl (by omega) f (by omega)]
      rw [tailPayloads_adv gs l hl1]
      simp
    · rw [read_interval_case_stop magic gs l st hok l hcp (le_refl _) hl hD]
      simp only []
      rw [if_pos (le_refl (0 : Int))]
      rw [tailPayloads_stop gs l hl hD hok.2.2.2.2.1]

/-- The consumption loop from a fresh `JLOG_BEGIN` checkpoint. -/
theorem drain_start (magic : Nat) (gs : List (List JRec)) (l : Nat)
    (st : JDirSt) (hok : DirOk magic gs l st) (hcp : st.cp = ⟨l, 0⟩)
    (hl : l < gs.length) (fuel : Nat)
    (hfuel : gs.length - l + 1 ≤ fuel) :
    subscriber_drain magic fuel st = some (tailPayloads gs l 0) := by
  by_cases hz : 0 < (gs.getD l []).length
  · obtain ⟨f, rfl⟩ : ∃ f, fuel = f + 1 := ⟨fuel - 1, by omega⟩
    rw [subscriber_drain]
    rw [read_interval_case_lt magic gs l st hok l 0 hcp (le_refl _) hl hz]
    simp only []
    rw [if_neg (show ¬ ((((gs.getD l []).length : Int) - ((0 : Nat) : Int)) ≤ 0)
      from by omega)]
    have hseg1 : segGet (resyncUpd magic gs st l) l =
        some (segBytes magic (gs.getD l [])) := by
      rw [segGet_resyncUpd, if_pos rfl]
    have hidx1 : idxGet (resyncUpd magic gs st l) l = openIdx (gs.getD l []) ∨
        idxGet (resyncUpd magic gs st l) l = sealedIdx (gs.getD l []) := by
      rw [idxGet_resyncUpd, if_pos rfl, builtIdx]
      split
      · exact Or.inr rfl
      · exact Or.inl rfl
    have hgood1 : goodSeg (gs.getD l []) :=
      hok.2.2.2.2.2 _ (gs_getD_mem gs l hl)
    rw [read_messages_range_clean magic l (resyncUpd magic gs st l)
      (gs.getD l []) hseg1 hidx1 hok.1 hgood1 (gs.getD l []).length
      (0 + 1) (gs.getD l []).length (by omega) (by omega) (le_refl _)]
    simp only []
    rw [jlog_ctx_read_checkpoint]
    rw [set_checkpoint_dir_same (resyncUpd magic gs st l)
      ⟨l, (gs.getD l []).length⟩ (by rw [resyncUpd_cp, hcp])]
    rw [drain_consumed magic gs (gs.length - l - 1) l _ (by omega)
      (DirOk_setCp magic gs l _ (DirOk_resyncUpd magic gs l st hok l
        (le_refl _) hl) _) rfl hl f (by omega)]
    rw [tailPayloads_lt gs l 0]
    simp
  · have h0 : (gs.getD l []).length = 0 := by omega
    rw [show tailPayloads gs l 0 = tailPayloads gs l (gs.getD l []).length
      by rw [h0]]
    exact drain_consumed magic gs (gs.length - l - 1) l st (by omega) hok
      (by rw [hcp, h0]) hl fuel (by omega)

theorem segGet_setStorage (st : JDirSt) (n : Nat) (L : Nat) :
    segGet { st with storage := n } L = segGet st L := rfl

theorem idxGet_setStorage (st : JDirSt) (n : Nat) (L : Nat) :
    idxGet { st with storage := n } L = idxGet st L := rfl

/-- `__jlog_metastore_atomic_increment` for the lone writer rotates to
a fresh, empty segment. -/
theorem atomic_increment_dir_clean (st : JDirSt)
    (h : st.storage + 1 < 2^32) :
    atomic_increment_dir st =
      setSeg { st with storage := st.storage + 1 } (st.storage + 1)
        (some []) := by
  rw [atomic_increment_dir, metastore_atomic_increment]
  rw [if_neg (by decide : ¬ (false = true))]
  rw [if_pos rfl]
  simp only []
  rw [Nat.mod_eq_of_lt h]
  simp

theorem segBytes_snoc (magic : Nat) (g : List JRec) (r : JRec) :
    segBytes magic g ++ encRec magic r = segBytes magic (g ++ [r]) := by
  rw [segBytes_append]
  simp [segBytes]

/-- One `jlog_ctx_write_message` call preserves the writer invariant,
following the grouping discipline. -/
theorem write_one (magic limit : Nat) (hlim : 0 < limit) (st : JDirSt)
    (done : List (List JRec)) (cur : List JRec) (r : JRec)
    (hinv : WInv magic limit st done cur)
    (hcnt : done.length + 1 < 2^32) :
    ∃ st', jlog_ctx_write_message magic limit r st = some st' ∧
      WInv magic limit st' (groupStep limit (done, cur) r).1
        (groupStep limit (done, cur) r).2 := by
  obtain ⟨h1, h2, h3, h4, h5, h6⟩ := hinv
  obtain ⟨stO, hopen, hstor, hsegO, h3O, h5O⟩ :
      ∃ stO, open_writer st = stO
        ∧ stO.storage = done.length
        ∧ segGet stO stO.storage = some (segBytes magic cur)
        ∧ (∀ L, L < done.length →
            segGet stO L = some (segBytes magic (done.getD L [])))
        ∧ (∀ L, idxGet stO L = []) := by
    rcases h4 with hseg | ⟨hd0, hc0, hnone⟩
    · have hseg' : segGet st st.storage = some (segBytes magic cur) := by
        rw [h1]
        exact hseg
      refine ⟨st, ?_, h1, hseg', h3, h5⟩
      rw [open_writer, hseg']
    · have hz : st.storage = 0 := by
        rw [h1, hd0]
        rfl
      refine ⟨setSeg st 0 (some []), ?_, ?_, ?_, ?_, ?_⟩
      · rw [open_writer, hz, hnone]
      · rw [setSeg_storage, hz, hd0]
        rfl
      · rw [setSeg_storage, hz, segGet_setSeg, if_pos rfl, hc0, segBytes_nil]
      · intro L hL
        rw [hd0] at hL
        simp at hL
      · intro L
        rw [idxGet_setSeg]
        exact h5 L
  rw [jlog_ctx_write_message, write_step, hopen]
  simp only []
  rw [hsegO]
  simp only [Option.getD_some]
  rw [if_neg (show ¬ limit ≤ (segBytes magic cur).length from by
    rw [segBytes_length]
    omega)]
  rw [segBytes_snoc]
  rw [groupStep]
  simp only []
  by_cases hrot : limit ≤ sizeSum (cur ++ [r])
  · rw [if_pos (show limit ≤ (segBytes magic (cur ++ [r])).length from by
      rw [segBytes_length]
      exact hrot)]
    rw [if_pos hrot]
    simp only []
    rw [atomic_increment_dir_clean _ (by
      rw [setSeg_storage, hstor]
      omega)]
    refine ⟨_, rfl, ?_, ?_, ?_, ?_, ?_, ?_⟩
    · rw [setSeg_storage, setSeg_storage, hstor]
      simp
    · simpa [sizeSum_nil] using hlim
    · intro L hL
      simp only [List.length_append, List.length_singleton] at hL
      rw [segGet_setSeg, if_neg (by
        rw [setSeg_storage, hstor]
        omega), segGet_setStorage, segGet_setSeg]
      by_cases hLd : L = done.length
      · subst hLd
        rw [if_pos hstor.symm]
        rw [getD_append_right _ _ _ _ (le_refl _), Nat.sub_self]
        rfl
      · rw [if_neg (by omega)]
        rw [getD_append_left _ _ _ _ (by omega)]
        exact h3O L (by omega)
    · refine Or.inl ?_
      rw [List.length_append, List.length_singleton]
      rw [segGet_setSeg, if_pos (by rw [setSeg_storage, hstor]), segBytes_nil]
    · intro L
      rw [idxGet_setSeg, idxGet_setStorage, idxGet_setSeg]
      exact h5O L
    · intro g hg
      rcases List.mem_append.mp hg with hg | hg
      · exact h6 g hg
      · rw [List.mem_singleton] at hg
        subst hg
        exact hrot
  · rw [if_neg (show ¬ limit ≤ (segBytes magic (cur ++ [r])).length from by
      rw [segBytes_length]
      exact hrot)]
    rw [if_neg hrot]
    simp only []
    refine ⟨_, rfl, ?_, by omega, ?_, ?_, ?_, h6⟩
    · rw [setSeg_storage, hstor]
    · intro L hL
      rw [segGet_setSeg, if_neg (by omega)]
      exact h3O L hL
    · refine Or.inl ?_
      rw [segGet_setSeg, if_pos hstor.symm]
    · intro L
      rw [idxGet_setSeg]
      exact h5O L

/-- The writer's whole run preserves the invariant, following the
grouping fold. -/
theorem write_fold (magic limit : Nat) (hlim : 0 < limit) :
    ∀ (rest : List JRec) (st : JDirSt) (done : List (List JRec))
      (cur : List JRec), WInv magic limit st done cur →
      done.length + rest.length + 1 < 2^32 →
      ∃ st', List.foldlM (fun st r => jlog_ctx_write_message magic limit r st)
          st rest = some st' ∧
        WInv magic limit st'
          (rest.foldl (groupStep limit) (done, cur)).1
          (rest.foldl (groupStep limit) (done, cur)).2 := by
  intro rest
  induction rest with
  | nil =>
    intro st done cur hinv hcnt
    exact ⟨st, rfl, hinv⟩
  | cons r t ih =>
    intro st done cur hinv hcnt
    obtain ⟨st1, heq1, hinv1⟩ := write_one magic limit hlim st done cur r hinv
      (by simp at hcnt; omega)
    have hlen : (groupStep limit (done, cur) r).1.length ≤ done.length + 1 := by
      rw [groupStep]
      simp only []
      split
      · simp
      · simp
    obtain ⟨st', heq2, hinv2⟩ := ih st1 _ _ hinv1 (by simp at hcnt; omega)
    refine ⟨st', ?_, ?_⟩
    · rw [List.foldlM_cons, heq1]
      exact heq2
    · rw [List.foldl_cons]
      exact hinv2

theorem WInv_init (magic limit : Nat) (hlim : 0 < limit) :
    WInv magic limit jlog_init_state [] [] := by
  refine ⟨rfl, by simpa [sizeSum_nil] using hlim, ?_, ?_, ?_, ?_⟩
  · intro L hL
    simp at hL
  · exact Or.inr ⟨rfl, rfl, rfl⟩
  · intro L
    cases L with
    | zero => rfl
    | succ n => rfl
  · intro g hg
    simp at hg

/-- The grouping fold flattens back to the records written. -/
theorem groupAcc_flatten (limit : Nat) :
    ∀ (rest : List JRec) (done : List (List JRec)) (cur : List JRec),
      ((rest.foldl (groupStep limit) (done, cur)).1 ++
        [(rest.foldl (groupStep limit) (done, cur)).2]).flatten =
      (done ++ [cur]).flatten ++ rest := by
  intro rest
  induction rest with
  | nil =>
    intro done cur
    simp
  | cons r t ih =>
    intro done cur
    rw [List.foldl_cons]
    by_cases hr : limit ≤ sizeSum (cur ++ [r])
    · rw [show groupStep limit (done, cur) r = (done ++ [cur ++ [r]], [])
        from by
          rw [groupStep]
          simp only []
          rw [if_pos hr]]
      rw [ih]
      simp
    · rw [show groupStep limit (done, cur) r = (done, cur ++ [r]) from by
        rw [groupStep]
        simp only []
        rw [if_neg hr]]
      rw [ih]
      simp

theorem sizeSum_flatten (gs : List (List JRec)) :
    sizeSum gs.flatten = (gs.map sizeSum).sum := by
  induction gs with
  | nil => rfl
  | cons a t ih =>
    rw [List.flatten_cons, sizeSum_append, List.map_cons, List.sum_cons, ih]

theorem sizeSum_mem_le (gs : List (List JRec)) (g : List JRec)
    (hg : g ∈ gs) : sizeSum g ≤ sizeSum gs.flatten := by
  rw [sizeSum_flatten]
  exact List.single_le_sum (fun x _ => Nat.zero_le x) _
    (List.mem_map.mpr ⟨g, hg, rfl⟩)

/-- The writer invariant implies the reader's directory invariant over
the grouped records. -/
theorem WInv_DirOk (magic limit : Nat) (st : JDirSt)
    (done : List (List JRec)) (cur : List JRec)
    (hinv : WInv magic limit st done cur)
    (hmagic : magic < 2^32) (hlim : 0 < limit)
    (hstrict : segGet st done.length = some (segBytes magic cur))
    (hmess : ∀ r ∈ (done ++ [cur]).flatten, r.mess.length < 2^32)
    (hsz : sizeSum (done ++ [cur]).flatten < 2^64) :
    DirOk magic (done ++ [cur]) 0 st := by
  obtain ⟨h1, h2, h3, h4, h5, h6⟩ := hinv
  refine ⟨hmagic, ?_, ?_, ?_, ?_, ?_⟩
  · rw [h1]
    simp
  · intro L hlo hL
    simp only [List.length_append, List.length_singleton] at hL
    by_cases hLd : L = done.length
    · subst hLd
      rw [getD_append_right _ _ _ _ (le_refl _), Nat.sub_self]
      exact hstrict
    · rw [getD_append_left _ _ _ _ (by omega)]
      exact h3 L (by omega)
  · intro L hlo hL
    exact Or.inl (h5 L)
  · intro i hi
    simp only [List.length_append, List.length_singleton] at hi
    rw [getD_append_left _ _ _ _ (by omega)]
    have hmem : done.getD i [] ∈ done := gs_getD_mem done i (by omega)
    have := h6 _ hmem
    intro hnil
    rw [hnil, sizeSum_nil] at this
    omega
  · intro g hg
    constructor
    · intro r hr
      exact hmess r (List.mem_flatten.mpr ⟨g, hg, hr⟩)
    · have := sizeSum_mem_le _ g hg
      omega

/-- `__jlog_resync_index` when the data file does not exist: a single
attempt reporting `FILE_OPEN`, no repair. -/
theorem resync_dir_none (magic log : Nat) (st : JDirSt)
    (h : segGet st log = none) :
    resync_dir magic log st =
      (setIdx (setSeg st log none) log (idxGet st log),
       ⟨.FILE_OPEN, idxGet st log, ⟨log, 0⟩, false⟩) := by
  rw [resync_dir, h]
  rw [resync_index]
  rw [resyncLoopGo]
  have hat : resync_index_attempt magic st.storage log none (idxGet st log) =
      ⟨.FILE_OPEN, idxGet st log, ⟨log, 0⟩, false⟩ := rfl
  rw [hat]
  simp only []
  rw [if_pos (Or.inr (Or.inl trivial))]

theorem first_log_id_zero (st : JDirSt) (h : (segGet st 0).isSome) :
    first_log_id st = ⟨0, 0⟩ := by
  rw [first_log_id]
  have hlen : 0 < st.segs.length := by
    by_contra hc
    have hnil : st.segs = [] := List.eq_nil_of_length_eq_zero (by omega)
    rw [segGet, hnil] at h
    simp [List.getD] at h
  obtain ⟨k, hk⟩ : ∃ k, st.segs.length = k + 1 :=
    ⟨st.segs.length - 1, by omega⟩
  rw [hk, List.range_succ_eq_map]
  rw [List.find?_cons_of_pos _ (by simpa using h)]

theorem tailPayloads_zero (gs : List (List JRec)) (hne : gs ≠ []) :
    tailPayloads gs 0 0 = gs.flatten.map (·.mess) := by
  rcases gs with _ | ⟨a, t⟩
  · exact absurd rfl hne
  · rw [tailPayloads]
    simp

/-- C1: Round-trip delivery.  A single writer appends the records
`recs` with `jlog_ctx_write_message` under segment size limit `limit`;
a subscriber added at `JLOG_BEGIN` then drains the store through
`jlog_ctx_read_interval` / `jlog_ctx_read_message` /
`jlog_ctx_read_checkpoint`.  The subscriber receives exactly the
payloads of `recs`, in order, byte for byte (empty payloads included),
under the representability bounds of the machine arithmetic. -/
theorem write_read_round_trip (magic limit : Nat) (recs : List JRec)
    (hlim : 0 < limit) (hmagic : magic < 2^32)
    (hcnt : recs.length + 1 < 2^32)
    (hmess : ∀ r ∈ recs, r.mess.length < 2^32)
    (hsz : sizeSum recs < 2^64) :
    jlog_round_trip magic limit recs = some (recs.map (·.mess)) := by
  by_cases hrec : recs = []
  · subst hrec
    show subscriber_drain magic (2 * jlog_init_state.storage + 3)
      (add_subscriber_begin jlog_init_state) = some []
    rw [show add_subscriber_begin jlog_init_state = jlog_init_state from rfl]
    rw [show 2 * jlog_init_state.storage + 3 = 2 + 1 from rfl]
    rw [subscriber_drain]
    rw [jlog_ctx_read_interval]
    simp only []
    rw [show jlog_init_state.cp = (⟨0, 0⟩ : JId) from rfl]
    simp only []
    rw [show jlog_init_state.storage + 2 = 1 + 1 from rfl]
    rw [find_first_log_after]
    simp only []
    rw [resync_dir_none magic 0 jlog_init_state rfl]
    simp only []
    rw [if_pos (show JErr.FILE_OPEN ≠ JErr.SUCCESS from
      fun hc => JErr.noConfusion hc)]
    rw [if_pos trivial]
    rw [setIdx_storage, setSeg_storage]
    rw [show jlog_init_state.storage = 0 from rfl]
    rw [if_pos (show (0 : Nat) ≥ 0 from le_refl 0)]
    simp only []
    rw [if_neg (show ¬ (0 : Nat) ≠ 0 from fun hc => hc rfl)]
    rw [if_neg (show ¬ (0 : Nat) ≠ 0 from fun hc => hc rfl)]
    rw [if_neg (show ¬ (0 : Nat) > 0 from by omega)]
    rw [if_neg (show ¬ (((0 : Nat) : Int) - ((0 : Nat) : Int) < 0) from
      by omega)]
    simp only []
    rw [if_pos (show ((0 : Nat) : Int) - ((0 : Nat) : Int) ≤ 0 from by omega)]
  · obtain ⟨st', heqw, hinv⟩ := write_fold magic limit hlim recs
      jlog_init_state [] [] (WInv_init magic limit hlim) (by simpa using hcnt)
    obtain ⟨done, cur, hdc⟩ :
        ∃ d c, recs.foldl (groupStep limit) ([], []) = (d, c) := ⟨_, _, rfl⟩
    rw [hdc] at hinv
    have hflat : (done ++ [cur]).flatten = recs := by
      have hga := groupAcc_flatten limit recs [] []
      rw [hdc] at hga
      simpa using hga
    have hstrict : segGet st' done.length = some (segBytes magic cur) := by
      rcases hinv.2.2.2.1 with h | ⟨hd0, hc0, -⟩
      · exact h
      · exfalso
        apply hrec
        rw [← hflat, show done = [] from hd0, show cur = [] from hc0]
        rfl
    have hok : DirOk magic (done ++ [cur]) 0 st' :=
      WInv_DirOk magic limit st' done cur hinv hmagic hlim hstrict
        (by rw [hflat]; exact hmess) (by rw [hflat]; exact hsz)
    rw [jlog_round_trip, writer_run, heqw]
    show subscriber_drain magic (2 * st'.storage + 3)
      (add_subscriber_begin st') = some (recs.map (·.mess))
    have hsome : (segGet st' 0).isSome := by
      rw [hok.2.2.1 0 (le_refl 0) (by simp)]
      rfl
    rw [add_subscriber_begin, first_log_id_zero st' hsome]
    rw [drain_start magic (done ++ [cur]) 0 _
      (DirOk_setCp magic (done ++ [cur]) 0 st' hok _) rfl (by simp)
      (2 * st'.storage + 3) (by
        have h1 : st'.storage = done.length := hinv.1
        simp only [List.length_append, List.length_singleton]
        omega)]
    rw [tailPayloads_zero _ (by simp), hflat]

theorem write_read_round_trip_witness :
    0 < 17 ∧ (7 : Nat) < 2^32
  ∧ ([⟨0, 0, [byte 65]⟩, ⟨1, 2, []⟩, ⟨3, 4, [byte 66, byte 67]⟩] :
      List JRec).length + 1 < 2^32
  ∧ (∀ r ∈ ([⟨0, 0, [byte 65]⟩, ⟨1, 2, []⟩, ⟨3, 4, [byte 66, byte 67]⟩] :
      List JRec), r.mess.length < 2^32)
  ∧ sizeSum [⟨0, 0, [byte 65]⟩, ⟨1, 2, []⟩, ⟨3, 4, [byte 66, byte 67]⟩] < 2^64
  ∧ jlog_round_trip 7 17
      [⟨0, 0, [byte 65]⟩, ⟨1, 2, []⟩, ⟨3, 4, [byte 66, byte 67]⟩] =
      some [[byte 65], [], [byte 66, byte 67]] :=
  ⟨by decide, by decide, by decide, by decide, by decide,
   write_read_round_trip 7 17
     [⟨0, 0, [byte 65]⟩, ⟨1, 2, []⟩, ⟨3, 4, [byte 66, byte 67]⟩]
     (by decide) (by decide) (by decide) (by decide) (by decide)⟩

end Jlog
